import Mathlib

/-!
# Verification of the `threadman` worker-thread pool

Shallow embedding of `src/threadman.h` (namespace `a7az0th`): the processor
count query, the `MultiThreadedFor` fork-join task (atomic cursor), and the
`ThreadManager` boss/worker protocol (`run`, `spawnNewThread`, `exec`,
`killall`).

The concurrent parts are modelled as small-step transition systems driven by
an explicit schedule (a list of actions naming which thread performs its next
instruction); theorems quantify over all schedules.  The sequential parts are
modelled as plain functions.
-/

namespace Threadman

/-! ## Processor count (`getProcessorCount`)

```
static int getProcessorCount(void) {
    const int cpu_count = std::thread::hardware_concurrency();
    return (cpu_count < 2) ? 1 : cpu_count;
}
```
`hc` stands for the value returned by `std::thread::hardware_concurrency()`.
-/

def getProcessorCount (hc : Nat) : Nat :=
  if hc < 2 then 1 else hc

/-! ## `MultiThreadedFor`, single-worker sequential execution

```
void run(ThreadManager& threadman, int numIterations, int numThreads) {
    idx = 0;
    count = numIterations;
    MultiThreaded::run(threadman, numThreads);
}
void threadProc(int index, int numThreads) final {
    int i = 0;
    while ((i = idx++) < count) {
        body(i, index, numThreads);
    }
}
```
With `numThreads == 1`, `ThreadManager::run` calls `threadProc(0, 1)` on the
calling thread.  `forLoop idx count wIdx nT` returns the list of `body`
invocations (arguments `(i, index, numThreads)`) together with the final
value of the cursor `idx`.
-/

structure MTFor where
  idx : Int
  count : Int
deriving DecidableEq

def forLoop (idx count wIdx nT : Int) : List (Int × Int × Int) × Int :=
  if h : idx < count then
    ((idx, wIdx, nT) :: (forLoop (idx + 1) count wIdx nT).1,
     (forLoop (idx + 1) count wIdx nT).2)
  else ([], idx + 1)
termination_by (count - idx).toNat
decreasing_by
  all_goals omega

/-- One call of `MultiThreadedFor::run(threadman, m, 1)` on a task instance in
state `s`: reset `idx` to 0, record `count := m`, then (via
`ThreadManager::run`'s single-thread fast path) execute `threadProc(0, 1)` on
the calling thread.  Returns the final task state and the list of `body`
invocations. -/
def MTFor.runSeq (_s : MTFor) (m : Int) : MTFor × List (Int × Int × Int) :=
  let r := forLoop 0 m 0 1
  ({ idx := r.2, count := m }, r.1)

/-- Characterization of `forLoop`: starting the cursor at `idx`, the body is
invoked at `idx, idx+1, ..., count-1` in this order. -/
theorem forLoop_eq (count wIdx nT : Int) :
    ∀ (fuel : Nat) (idx : Int), (count - idx).toNat = fuel →
      (forLoop idx count wIdx nT).1 =
        (List.range fuel).map (fun (k : Nat) => (idx + (k : Int), wIdx, nT)) := by
  intro fuel
  induction fuel with
  | zero =>
      intro idx h
      have hge : ¬ idx < count := by omega
      unfold forLoop
      simp [hge]
  | succ n ih =>
      intro idx h
      have hlt : idx < count := by omega
      have h2 : (count - (idx + 1)).toNat = n := by omega
      unfold forLoop
      rw [dif_pos hlt]
      show (idx, wIdx, nT) :: (forLoop (idx + 1) count wIdx nT).1 = _
      rw [ih (idx + 1) h2, List.range_succ_eq_map, List.map_cons, List.map_map]
      congr 1
      · simp
      · apply List.map_congr_left
        intro a _
        simp only [Function.comp_apply, Prod.mk.injEq, Nat.succ_eq_add_one,
          and_true, and_self]
        push_cast
        ring

theorem runSeq_calls (s : MTFor) (m : Int) :
    (MTFor.runSeq s m).2 =
      (List.range m.toNat).map (fun (k : Nat) => ((k : Int), 0, 1)) := by
  unfold MTFor.runSeq
  simp only
  rw [forLoop_eq m 0 1 m.toNat 0 (by omega)]
  apply List.map_congr_left
  intro a _
  simp

/-! ## Fork-join cursor model (`MultiThreadedFor::threadProc`, many workers)

Each of `nw` workers runs `threadProc`'s loop concurrently against the shared
atomic cursor `idx` (here `cursor`).  One scheduled step of an active worker
performs one loop iteration atomically at the source's atomicity granularity:
the fetch-and-increment `idx++` is the only shared-memory operation, so the
subsequent comparison with `count` and the decision to invoke `body` are
functions of the fetched value.  The ghost field `logF` records, in claim
order, each `body` invocation as `(iterationIndex, workerIndex)`; a worker
whose fetched value reaches `count` leaves the loop (`active := false`). -/

/-- C9: for every value `h` returned by the platform's hardware-concurrency
query, `getProcessorCount` returns `h` when `h ≥ 2` and returns `1`
otherwise; its result is always at least 1. -/
theorem claim_C9_processor_count (h : Nat) :
    (2 ≤ h → getProcessorCount h = h) ∧
    (h < 2 → getProcessorCount h = 1) ∧
    1 ≤ getProcessorCount h := by
  refine ⟨fun h2 => ?_, fun h2 => ?_, ?_⟩
  · simp [getProcessorCount, Nat.not_lt.mpr h2]
  · simp [getProcessorCount, h2]
  · unfold getProcessorCount
    split <;> omega

theorem claim_C9_processor_count_w :
    getProcessorCount 8 = 8 ∧ getProcessorCount 0 = 1 :=
  ⟨(claim_C9_processor_count 8).1 (by decide),
   (claim_C9_processor_count 0).2.1 (by decide)⟩

/-- C3: in the single-worker case, `MultiThreadedFor::run(pool, M, 1)` resets
the cursor to 0 and records `M`, then invokes `body` exactly `M` times with
arguments `(i, 0, 1)` for `i = 0, ..., M-1` in increasing order (zero times
when `M ≤ 0`); a second sequential `run` on the same instance with count `M'`
again invokes the body exactly `M'` times. -/
theorem claim_C3_single_worker_for (s : MTFor) (m : Int) :
    (MTFor.runSeq s m).2 =
      (List.range m.toNat).map (fun (k : Nat) => ((k : Int), 0, 1)) ∧
    (m ≤ 0 → (MTFor.runSeq s m).2 = []) ∧
    (MTFor.runSeq s m).2.length = m.toNat ∧
    (∀ m' : Int, (MTFor.runSeq (MTFor.runSeq s m).1 m').2.length = m'.toNat) := by
  refine ⟨runSeq_calls s m, fun hm => ?_, ?_, fun m' => ?_⟩
  · rw [runSeq_calls s m]
    have : m.toNat = 0 := by omega
    simp [this]
  · rw [runSeq_calls s m]
    simp
  · rw [runSeq_calls _ m']
    simp

theorem claim_C3_single_worker_for_w :
    (MTFor.runSeq ⟨5, 7⟩ 3).2 = [(0, 0, 1), (1, 0, 1), (2, 0, 1)] ∧
    (MTFor.runSeq ⟨5, 7⟩ (-2)).2 = [] := by
  constructor
  · rw [(claim_C3_single_worker_for ⟨5, 7⟩ 3).1]
    decide
  · exact (claim_C3_single_worker_for ⟨5, 7⟩ (-2)).2.1 (by decide)

inductive TState where
  | init | idle | running | done | dead
deriving DecidableEq

/-! ## Sequential boss-state model of `ThreadManager` (the `info[]` array)

`ThreadManager` owns `info[MAX_CPU_COUNT]` (`MAX_CPU_COUNT = 64`),
`threadsInPool` (`tp` below) and the atomic `counter`.  The fields of the
slot array and `threadsInPool` are written only by the boss thread (workers
write only their own `state`), so `spawnNewThread`, the boss side of `run`,
and `killall` are modelled as plain functions on the pool state.  A worker's
reaction to a handshake is folded into the boss's handshake iteration (the
worker runs the job and parks back to `Idle`); the fully interleaved protocol
is modelled separately below.

Each function additionally returns the list of indices `j` at which `info[j]`
is accessed, one entry per loop iteration touching a slot (`accesses`), and
`run` returns the task invocations it causes (`calls`, as pairs
`(index, numThreads)` passed to `threadProc`). -/

structure DSlot where
  index : Nat
  numThreads : Nat
  state : TState
  alg : Bool
deriving DecidableEq

def dslot0 : DSlot := { index := 0, numThreads := 0, state := .init, alg := false }

structure Pool where
  tp : Nat
  slots : Nat → DSlot
  counter : Int

def pool0 : Pool := { tp := 0, slots := fun _ => dslot0, counter := 0 }

/-- `spawnNewThread()`: initialize `info[threadsInPool]` (index = position,
state = `THREAD_INIT`, null algorithm), start the worker, increment
`threadsInPool`, then set `numThreads` of every slot `i < threadsInPool` to
the new `threadsInPool`. -/
def spawnD (p : Pool) : Pool :=
  { tp := p.tp + 1,
    slots := fun j =>
      if j = p.tp then
        { index := p.tp, numThreads := p.tp + 1, state := .init, alg := false }
      else if j < p.tp then
        { p.slots j with numThreads := p.tp + 1 }
      else p.slots j,
    counter := p.counter }

/-- Slot indices accessed by one `spawnNewThread()` call: `info[threadsInPool]`
for the context initialization, then `info[i]` for
`i = threadsInPool - 1, ..., 0` (after the increment) in the `numThreads`
update loop. -/
def spawnAcc (p : Pool) : List Nat := p.tp :: (List.range (p.tp + 1)).reverse

/-- The `while (threadsInPool < numThreads) spawnNewThread();` loop of
`ThreadManager::run`. -/
def growD (p : Pool) (N : Nat) : Pool × List Nat :=
  if _h : p.tp < N then
    ((growD (spawnD p) N).1, spawnAcc p ++ (growD (spawnD p) N).2)
  else (p, [])
termination_by N - p.tp
decreasing_by
  simp only [spawnD]
  omega

/-- One iteration of `run`'s dispatch loop for slot `i`, with the worker's
reaction folded in: the boss sets `index`, `numThreads`, `algorithm`, waits
for `Idle`, sets `Running` and signals; the worker runs the job and parks
back to `Idle`. -/
def hsStep (hasJob : Bool) (N : Nat) (p : Pool) (i : Nat) : Pool :=
  { p with
    slots := fun j =>
      if j = i then { index := i, numThreads := N, state := .idle, alg := hasJob }
      else p.slots j }

structure RunOut where
  pool : Pool
  calls : List (Nat × Nat)
  accesses : List Nat

/-- Boss side of `ThreadManager::run(job, N)`.  `hasJob` records whether
`job` is non-null (the workers' `exec` checks `if (job)` before dispatching).
For `N == 1` the thread machinery is bypassed and `job->threadProc(0, 1)` runs
on the calling thread.  Otherwise: grow the pool to `N`, set `counter := N`,
dispatch each of the `N` slots (each worker invocation decrements `counter`,
which ends at 0), and finally poll slots `0..N-1` until all are `Idle`. -/
def runD (p : Pool) (hasJob : Bool) (N : Nat) : RunOut :=
  if N = 1 then
    { pool := p, calls := [(0, 1)], accesses := [] }
  else
    let g := growD p N
    let p2 := (List.range N).foldl (hsStep hasJob N) { g.1 with counter := (N : Int) }
    { pool := { p2 with counter := 0 },
      calls := if hasJob then (List.range N).map (fun i => (i, N)) else [],
      accesses := g.2 ++ List.range N ++ List.range N }

/-- One iteration of `killall`'s loop: wait for `info[threadsInPool-1]` to be
`Idle`, set `Done`, signal, wait for `Dead`, detach, decrement
`threadsInPool`. -/
def killStep (p : Pool) : Pool :=
  { p with
    slots := fun j =>
      if j = p.tp - 1 then { p.slots (p.tp - 1) with state := .dead }
      else p.slots j,
    tp := p.tp - 1 }

/-- `ThreadManager::killall()`: tear down slots from `threadsInPool - 1` down
to `0`.  Also returns the accessed slot indices in order. -/
def killD (p : Pool) : Pool × List Nat :=
  if _h : 0 < p.tp then
    ((killD (killStep p)).1, (p.tp - 1) :: (killD (killStep p)).2)
  else (p, [])
termination_by p.tp
decreasing_by
  simp only [killStep]
  omega

theorem growD_tp (N : Nat) :
    ∀ (fuel : Nat) (p : Pool), N - p.tp = fuel →
      (growD p N).1.tp = max p.tp N := by
  intro fuel
  induction fuel with
  | zero =>
      intro p h
      have hge : ¬ p.tp < N := by omega
      unfold growD
      rw [dif_neg hge]
      show p.tp = max p.tp N
      omega
  | succ n ih =>
      intro p h
      have hlt : p.tp < N := by omega
      unfold growD
      rw [dif_pos hlt]
      have h2 : N - (spawnD p).tp = n := by
        simp only [spawnD]
        omega
      show (growD (spawnD p) N).1.tp = max p.tp N
      rw [ih (spawnD p) h2]
      simp only [spawnD]
      omega

theorem growD_acc (N : Nat) :
    ∀ (fuel : Nat) (p : Pool), N - p.tp = fuel →
      ∀ j ∈ (growD p N).2, j < max p.tp N := by
  intro fuel
  induction fuel with
  | zero =>
      intro p h j hj
      have : ¬ p.tp < N := by omega
      unfold growD at hj
      rw [dif_neg this] at hj
      simp at hj
  | succ n ih =>
      intro p h j hj
      have hlt : p.tp < N := by omega
      unfold growD at hj
      rw [dif_pos hlt] at hj
      simp only [List.mem_append] at hj
      rcases hj with hj | hj
      · simp only [spawnAcc, List.mem_cons, List.mem_reverse, List.mem_range] at hj
        omega
      · have h2 : N - (spawnD p).tp = n := by
          simp only [spawnD]
          omega
        have := ih (spawnD p) h2 j hj
        simp only [spawnD] at this
        omega

theorem hsFold_tp (hasJob : Bool) (N : Nat) (l : List Nat) (p : Pool) :
    (l.foldl (hsStep hasJob N) p).tp = p.tp := by
  induction l generalizing p with
  | nil => rfl
  | cons a tl ih =>
      simp only [List.foldl_cons]
      rw [ih]
      rfl

theorem runD_tp (p : Pool) (hasJob : Bool) (N : Nat) (hN : N ≠ 1) :
    (runD p hasJob N).pool.tp = max p.tp N := by
  unfold runD
  rw [if_neg hN]
  show ((List.range N).foldl (hsStep hasJob N) _).tp = _
  rw [hsFold_tp]
  exact growD_tp N (N - p.tp) p rfl

theorem killD_tp : ∀ (fuel : Nat) (p : Pool), p.tp = fuel → (killD p).1.tp = 0 := by
  intro fuel
  induction fuel with
  | zero =>
      intro p h
      have hz : ¬ 0 < p.tp := by omega
      unfold killD
      rw [dif_neg hz]
      exact h
  | succ n ih =>
      intro p h
      have hp : 0 < p.tp := by omega
      unfold killD
      rw [dif_pos hp]
      exact ih (killStep p) (by simp only [killStep]; omega)

theorem killD_acc : ∀ (fuel : Nat) (p : Pool), p.tp = fuel →
    ∀ j ∈ (killD p).2, j < p.tp := by
  intro fuel
  induction fuel with
  | zero =>
      intro p h j hj
      have hz : ¬ 0 < p.tp := by omega
      unfold killD at hj
      rw [dif_neg hz] at hj
      simp at hj
  | succ n ih =>
      intro p h j hj
      have hp : 0 < p.tp := by omega
      unfold killD at hj
      rw [dif_pos hp] at hj
      simp only [List.mem_cons] at hj
      rcases hj with hj | hj
      · omega
      · have := ih (killStep p) (by simp only [killStep]; omega) j hj
        simp only [killStep] at this
        omega

/-! ## Claim theorems: C4, C5, C6 -/

/-- C4: for every task and every pool state, `ThreadManager::run(task, 1)`
invokes `task->threadProc(0, 1)` exactly once, synchronously on the calling
thread (the call appears in `run`'s own output, with no slot access and hence
no worker involved), spawns no thread, and leaves the entire pool state
(`threadsInPool`, every slot, the `counter`) unchanged. -/
theorem claim_C4_single_thread_fast_path (p : Pool) (hasJob : Bool) :
    (runD p hasJob 1).pool = p ∧
    (runD p hasJob 1).calls = [(0, 1)] ∧
    (runD p hasJob 1).accesses = [] :=
  ⟨rfl, rfl, rfl⟩

/-- C5: with `numThreads ≤ MAX_CPU_COUNT = 64` (and the matching invariant
`threadsInPool ≤ 64`), every `info[]` access performed by `run` (spawn loop,
dispatch loop, final poll) and by `killall` is in bounds; and since the code
never checks `numThreads` against the cap, `run` with `numThreads = 65` on an
empty pool reaches an access of `info[64]`, one past the array. -/
theorem claim_C5_slot_access_bounds (p : Pool) (hasJob : Bool) (N : Nat)
    (htp : p.tp ≤ 64) (hN : N ≤ 64) :
    (∀ j ∈ (runD p hasJob N).accesses, j < 64) ∧
    (∀ j ∈ (killD p).2, j < 64) ∧
    64 ∈ (runD pool0 true 65).accesses := by
  refine ⟨?_, ?_, ?_⟩
  · intro j hj
    unfold runD at hj
    by_cases h1 : N = 1
    · rw [if_pos h1] at hj
      simp at hj
    · rw [if_neg h1] at hj
      simp only [List.mem_append] at hj
      rcases hj with (hj | hj) | hj
      · have := growD_acc N (N - p.tp) p rfl j hj
        omega
      · simp only [List.mem_range] at hj
        omega
      · simp only [List.mem_range] at hj
        omega
  · intro j hj
    have := killD_acc p.tp p rfl j hj
    omega
  · unfold runD
    rw [if_neg (by decide)]
    simp only [List.mem_append]
    right
    simp

theorem claim_C5_slot_access_bounds_w :
    (∀ j ∈ (runD pool0 true 4).accesses, j < 64) ∧
    64 ∈ (runD pool0 true 65).accesses :=
  ⟨(claim_C5_slot_access_bounds pool0 true 4 (by decide) (by decide)).1,
   (claim_C5_slot_access_bounds pool0 true 4 (by decide) (by decide)).2.2⟩

/-- C6: pool growth is monotonic: a `run` with `N ≥ 2` leaves
`threadsInPool = max (old threadsInPool) N`; neither `run` nor
`spawnNewThread` ever decreases `threadsInPool` (only `killall` does, to 0);
after `spawnNewThread` the new slot's `index` equals its position and every
populated slot's `numThreads` equals the new `threadsInPool`. -/
theorem claim_C6_monotonic_growth (p : Pool) (hasJob : Bool) (N : Nat)
    (hN : 2 ≤ N) :
    (runD p hasJob N).pool.tp = max p.tp N ∧
    (∀ (q : Pool) (b : Bool) (M : Nat), q.tp ≤ (runD q b M).pool.tp) ∧
    (∀ q : Pool, q.tp ≤ (spawnD q).tp) ∧
    (∀ q : Pool, (killD q).1.tp = 0) ∧
    ((spawnD p).slots p.tp).index = p.tp ∧
    (∀ i, i < (spawnD p).tp → ((spawnD p).slots i).numThreads = (spawnD p).tp) := by
  refine ⟨runD_tp p hasJob N (by omega), ?_, ?_, ?_, ?_, ?_⟩
  · intro q b M
    by_cases h1 : M = 1
    · subst h1
      exact Nat.le_of_eq (congrArg Pool.tp (claim_C4_single_thread_fast_path q b).1).symm
    · rw [runD_tp q b M h1]
      omega
  · intro q
    simp only [spawnD]
    omega
  · intro q
    exact killD_tp q.tp q rfl
  · simp [spawnD]
  · intro i hi
    simp only [spawnD] at hi ⊢
    by_cases he : i = p.tp
    · simp [he]
    · have hlt : i < p.tp := by omega
      simp [he, hlt]

theorem claim_C6_monotonic_growth_w :
    (runD pool0 true 3).pool.tp = 3 ∧ (spawnD pool0).tp = 1 :=
  ⟨((claim_C6_monotonic_growth pool0 true 3 (by decide)).1).trans (by decide),
   rfl⟩

/-! ## Interleaved model of the `ThreadManager` boss/worker protocol

One full pool lifecycle on a fresh `ThreadManager`: a single
`run(job, N)` call followed by `killall()` (the destructor), with the boss
thread and every spawned worker thread (`exec`) advancing one source-level
instruction per scheduled step, under an arbitrary interleaving.

Worker program counter (`exec`'s control points):
* `atTop`    — about to execute `info->state = THREAD_IDLE` at the loop top;
* `toWait`   — `state` written, about to call `changedState.wait()` (the
               window in which a signal is lost);
* `sleeping` — blocked inside `wait()`;
* `woken`    — `wait()` returned, about to read `info->state` (the switch);
* `afterJob` — past the dispatch site, about to execute `--cnt` and possibly
               `releaseMainThread->signal()`;
* `exiting`  — saw `THREAD_DONE`, about to write `THREAD_DEAD` and return;
* `halted`   — returned;
* `unborn`   — the OS thread was never created.

`Event::signal` wakes one waiter if some thread is blocked in `wait` and is
lost otherwise (`std::condition_variable::notify_one` under the event's
mutex; the mutex makes `wait`'s sleep atomic, hence the separate `toWait`
point).

Boss program counter: `spawning` (the `while (threadsInPool < numThreads)`
loop), `hsSet/hsPoll/hsGo/hsSignal i` (the dispatch loop body for slot `i`:
field writes, the `while (state != THREAD_IDLE)` poll, `state =
THREAD_RUNNING`, `changedState.signal()`), `toWaitB/sleepingB`
(`waitForThreads.wait()`), `poll j` (the final all-idle polling pass),
`runDone`, and `killall`'s points `killCheck/killPoll/killSet/killSignal/
killWaitDead/killDetach/killDone` (loop test, `while != IDLE`,
`state = THREAD_DONE`, `signal`, `while != DEAD`, `handle.detach()` with
`threadsInPool--`).

Ghost instrumentation (no influence on control flow): `log` records each
`job->threadProc(index, numThreads)` invocation, `ranJob i` that worker `i`
passed the dispatch site, `finished i` that worker `i` executed `--cnt`,
`bossSignals` counts `releaseMainThread->signal()` calls, and `killOrder`
records the order in which `killall` released slots. -/

inductive WPC where
  | unborn | atTop | toWait | sleeping | woken | afterJob | exiting | halted
deriving DecidableEq

inductive BPC where
  | start
  | spawning
  | hsSet (i : Nat)
  | hsPoll (i : Nat)
  | hsGo (i : Nat)
  | hsSignal (i : Nat)
  | toWaitB
  | sleepingB
  | poll (j : Nat)
  | runDone
  | killCheck
  | killPoll
  | killSet
  | killSignal
  | killWaitDead
  | killDetach
  | killDone
deriving DecidableEq

structure Call where
  worker : Nat
  argIndex : Nat
  argNum : Nat
deriving DecidableEq

structure St where
  slots : Nat → DSlot
  wpc : Nat → WPC
  tp : Nat
  counter : Int
  bpc : BPC
  log : List Call
  bossSignals : Nat
  ranJob : Nat → Bool
  finished : Nat → Bool
  killOrder : List Nat

structure Cfg where
  N : Nat
  hasJob : Bool

def st0 : St :=
  { slots := fun _ => dslot0, wpc := fun _ => .unborn, tp := 0, counter := 0,
    bpc := .start, log := [], bossSignals := 0, ranJob := fun _ => false,
    finished := fun _ => false, killOrder := [] }

def updState (f : Nat → DSlot) (i : Nat) (st : TState) : Nat → DSlot :=
  fun j => if j = i then { f i with state := st } else f j

/-- `Event::signal()` on worker `i`'s `changedState`: wake it if it is
blocked in `wait()`, otherwise the notification is lost. -/
def wake (s : St) (i : Nat) : St :=
  if s.wpc i = .sleeping then { s with wpc := Function.update s.wpc i .woken }
  else s

/-- One instruction of the boss thread (`run` then `killall`). -/
def bossStep (c : Cfg) (s : St) : St :=
  match s.bpc with
  | .start =>
      -- run(job, numThreads)
      if c.N = 1 then
        -- fast path: job->threadProc(0, 1) on the calling thread
        if c.hasJob then
          { s with log := s.log ++ [⟨0, 0, 1⟩],
                   ranJob := Function.update s.ranJob 0 true,
                   bpc := .runDone }
        else { s with bpc := .runDone }
      else { s with bpc := .spawning }
  | .spawning =>
      if s.tp < c.N then
        -- spawnNewThread(): init info[tp], start the worker, ++threadsInPool,
        -- update numThreads of all populated slots
        { s with
          slots := fun j =>
            if j = s.tp then
              { index := s.tp, numThreads := s.tp + 1, state := .init, alg := false }
            else if j < s.tp then { s.slots j with numThreads := s.tp + 1 }
            else s.slots j,
          wpc := Function.update s.wpc s.tp .atTop,
          tp := s.tp + 1 }
      else { s with counter := (c.N : Int), bpc := .hsSet 0 }
  | .hsSet i =>
      -- info[i].index = i; info[i].numThreads = numThreads; info[i].algorithm = job
      { s with
        slots := fun j =>
          if j = i then { s.slots i with index := i, numThreads := c.N, alg := c.hasJob }
          else s.slots j,
        bpc := .hsPoll i }
  | .hsPoll i =>
      -- while (info[i].state != THREAD_IDLE) wait(20);
      if (s.slots i).state = .idle then { s with bpc := .hsGo i } else s
  | .hsGo i =>
      -- info[i].state = THREAD_RUNNING
      { s with slots := updState s.slots i .running, bpc := .hsSignal i }
  | .hsSignal i =>
      -- info[i].changedState.signal()
      { wake s i with bpc := if i + 1 < c.N then .hsSet (i + 1) else .toWaitB }
  | .toWaitB => { s with bpc := .sleepingB }
  | .sleepingB => s  -- blocked in waitForThreads.wait(); woken by a worker
  | .poll j =>
      -- round robin all threads until they come to rest
      if j < c.N then
        if (s.slots j).state = .idle then { s with bpc := .poll (j + 1) }
        else { s with bpc := .poll 0 }
      else { s with bpc := .runDone }
  | .runDone => { s with bpc := .killCheck }  -- ~ThreadManager() calls killall()
  | .killCheck =>
      if 0 < s.tp then { s with bpc := .killPoll } else { s with bpc := .killDone }
  | .killPoll =>
      if (s.slots (s.tp - 1)).state = .idle then { s with bpc := .killSet } else s
  | .killSet =>
      { s with slots := updState s.slots (s.tp - 1) .done, bpc := .killSignal }
  | .killSignal => { wake s (s.tp - 1) with bpc := .killWaitDead }
  | .killWaitDead =>
      if (s.slots (s.tp - 1)).state = .dead then { s with bpc := .killDetach } else s
  | .killDetach =>
      { s with killOrder := s.killOrder ++ [s.tp - 1], tp := s.tp - 1,
               bpc := .killCheck }
  | .killDone => s

/-- One instruction of worker `i` (`exec`). -/
def wkStep (s : St) (i : Nat) : St :=
  match s.wpc i with
  | .unborn => s
  | .atTop =>
      -- info->state = THREAD_IDLE
      { s with slots := updState s.slots i .idle,
               wpc := Function.update s.wpc i .toWait }
  | .toWait =>
      -- info->changedState.wait(): enter the blocked set
      { s with wpc := Function.update s.wpc i .sleeping }
  | .sleeping => s  -- blocked; only a signal moves this worker
  | .woken =>
      -- switch (info->state)
      match (s.slots i).state with
      | .running =>
          -- if (job) job->threadProc(info->index, info->numThreads)
          { s with
            log := if (s.slots i).alg then
                s.log ++ [⟨i, (s.slots i).index, (s.slots i).numThreads⟩]
              else s.log,
            ranJob := Function.update s.ranJob i true,
            wpc := Function.update s.wpc i .afterJob }
      | .done => { s with wpc := Function.update s.wpc i .exiting }
      | _ => { s with wpc := Function.update s.wpc i .atTop }
  | .afterJob =>
      -- if (0 == --cnt) info->releaseMainThread->signal();
      if s.counter - 1 = 0 then
        { s with counter := s.counter - 1,
                 finished := Function.update s.finished i true,
                 wpc := Function.update s.wpc i .atTop,
                 bossSignals := s.bossSignals + 1,
                 bpc := if s.bpc = .sleepingB then .poll 0 else s.bpc }
      else
        { s with counter := s.counter - 1,
                 finished := Function.update s.finished i true,
                 wpc := Function.update s.wpc i .atTop }
  | .exiting =>
      -- info->state = THREAD_DEAD (then the thread function returns)
      { s with slots := updState s.slots i .dead,
               wpc := Function.update s.wpc i .halted }
  | .halted => s

inductive Act where
  | boss
  | wk (i : Nat)
deriving DecidableEq

def stepA (c : Cfg) (s : St) : Act → St
  | .boss => bossStep c s
  | .wk i => wkStep s i

/-- Run the protocol from the fresh pool under schedule `acts`. -/
def execE (c : Cfg) (acts : List Act) : St :=
  acts.foldl (stepA c) st0

/-! ## The protocol invariant

All theorems about the interleaved model below are stated for `2 ≤ N` (the
`N = 1` fast path touches neither the slots nor the workers and is handled
by the sequential pool model `runD`). -/

/-- Number of slots for which the boss has already executed
`info[i].state = THREAD_RUNNING` (the dispatch count). -/
def dspCount (N : Nat) : BPC → Nat
  | .start | .spawning => 0
  | .hsSet i | .hsPoll i | .hsGo i => i
  | .hsSignal i => i + 1
  | _ => N

/-- Number of slots for which the boss has already executed the field writes
`info[i].index = i; info[i].numThreads = N; info[i].algorithm = job`. -/
def fsCount (N : Nat) : BPC → Nat
  | .start | .spawning => 0
  | .hsSet i => i
  | .hsPoll i | .hsGo i | .hsSignal i => i + 1
  | _ => N

/-- Whether the boss has already executed `counter = numThreads`. -/
def counterSet : BPC → Bool
  | .start | .spawning => false
  | _ => true

/-- Whether the boss is inside `killall()` (or past it). -/
def isKill : BPC → Bool
  | .killCheck | .killPoll | .killSet | .killSignal | .killWaitDead
  | .killDetach | .killDone => true
  | _ => false

/-- `((Finset.range N).filter f).card` for a boolean flag family `f`. -/
def finCountF (N : Nat) (f : Nat → Bool) : Nat :=
  ((Finset.range N).filter (fun i => f i = true)).card

/-- Number of workers that have executed `--cnt`. -/
def finCount (c : Cfg) (s : St) : Nat := finCountF c.N s.finished

/-- Per-worker invariant in explicit arguments: worker control point `w`,
slot state `st`, ghost flags `r` (`ranJob`) and `f` (`finished`), pool size
`tp`, worker id `i`. -/
def WOkA (w : WPC) (st : TState) (r f : Bool) (tp i : Nat) : Prop :=
  match w with
  | .unborn => tp ≤ i ∧ st = .init
  | .atTop =>
      (st = .init ∧ r = false ∧ f = false) ∨
      (st = .running ∧ r = true ∧ f = true)
  | .toWait | .sleeping =>
      (st = .idle ∧ r = f) ∨
      (st = .running ∧ r = false ∧ f = false) ∨
      (st = .done ∧ r = true ∧ f = true)
  | .woken =>
      (st = .running ∧ r = false ∧ f = false) ∨
      (st = .done ∧ r = true ∧ f = true)
  | .afterJob => st = .running ∧ r = true ∧ f = false
  | .exiting => st = .done ∧ r = true ∧ f = true
  | .halted => st = .dead ∧ r = true ∧ f = true

/-- Per-worker invariant, keyed on the worker's control point: which slot
states and ghost flags are compatible with it. -/
def WOk (s : St) (i : Nat) : Prop :=
  WOkA (s.wpc i) ((s.slots i).state) (s.ranJob i) (s.finished i) s.tp i

/-- A worker the boss has not yet dispatched: parked or parking, slot not
`Running`, ghosts clear. -/
def PreW (s : St) (i : Nat) : Prop :=
  (s.wpc i = .unborn ∨ s.wpc i = .atTop ∨ s.wpc i = .toWait ∨ s.wpc i = .sleeping) ∧
  ((s.slots i).state = .init ∨ (s.slots i).state = .idle) ∧
  s.ranJob i = false ∧ s.finished i = false

/-- Boss-position bookkeeping for `killall`'s sub-steps. -/
def KillCl (s : St) : Prop :=
  match s.bpc with
  | .killCheck => ∀ i, i < s.tp → (s.slots i).state = .idle
  | .killPoll => 0 < s.tp ∧ ∀ i, i < s.tp → (s.slots i).state = .idle
  | .killSet => 0 < s.tp ∧ ∀ i, i < s.tp → (s.slots i).state = .idle
  | .killSignal =>
      0 < s.tp ∧
      ((s.slots (s.tp - 1)).state = .done ∨ (s.slots (s.tp - 1)).state = .dead) ∧
      ∀ i, i < s.tp - 1 → (s.slots i).state = .idle
  | .killWaitDead =>
      0 < s.tp ∧
      ((s.slots (s.tp - 1)).state = .done ∨ (s.slots (s.tp - 1)).state = .dead) ∧
      ∀ i, i < s.tp - 1 → (s.slots i).state = .idle
  | .killDetach =>
      0 < s.tp ∧ (s.slots (s.tp - 1)).state = .dead ∧
      ∀ i, i < s.tp - 1 → (s.slots i).state = .idle
  | .killDone => s.tp = 0
  | _ => True

/-- The global protocol invariant (for a round with `2 ≤ N`). -/
structure Inv (c : Cfg) (s : St) : Prop where
  wok : ∀ i, WOk s i
  l1 : ∀ i, (s.log.map Call.worker).count i =
        if c.hasJob = true ∧ s.ranJob i = true then 1 else 0
  l2 : ∀ e ∈ s.log, e.argIndex = e.worker ∧ e.argNum = c.N ∧ e.worker < c.N
  unb : ∀ i, c.N ≤ i → s.wpc i = .unborn
  tpLe : s.tp ≤ c.N
  predisp : ∀ i, dspCount c.N s.bpc ≤ i → PreW s i
  disp : ∀ i, i < dspCount c.N s.bpc → s.finished i = false →
        (s.slots i).state = .running
  cnt : s.counter =
        if counterSet s.bpc = true then (c.N : Int) - (finCount c s : Int) else 0
  sig : s.bossSignals = if finCount c s = c.N then 1 else 0
  fSpawn : s.bpc = .spawning → ∀ i, i < s.tp →
        (s.slots i).index = i ∧ (s.slots i).numThreads = s.tp ∧
        (s.slots i).alg = false
  fPost : counterSet s.bpc = true → ∀ i, i < c.N →
        (s.slots i).index = i ∧ (s.slots i).numThreads = c.N ∧
        (s.slots i).alg = (decide (i < fsCount c.N s.bpc) && c.hasJob)
  tpPost : counterSet s.bpc = true → isKill s.bpc = false → s.tp = c.N
  spawnCl : (s.bpc = .start ∨ s.bpc = .spawning) → ∀ i, s.tp ≤ i →
        s.wpc i = .unborn
  hsSetCl : ∀ i, s.bpc = .hsSet i → i < c.N
  hsPollCl : ∀ i, s.bpc = .hsPoll i → i < c.N
  hsGoCl : ∀ i, s.bpc = .hsGo i → i < c.N ∧ (s.slots i).state = .idle
  hsSigCl : ∀ i, s.bpc = .hsSignal i → i < c.N ∧
        (s.slots i).state = .running ∧ s.ranJob i = false ∧
        s.finished i = false ∧ (s.wpc i = .toWait ∨ s.wpc i = .sleeping)
  pollCl : ∀ j, s.bpc = .poll j → j ≤ c.N ∧ ∀ i, i < j → (s.slots i).state = .idle
  rdIdle : s.bpc = .runDone → ∀ i, i < c.N → (s.slots i).state = .idle
  allFin : (s.bpc = .runDone ∨ isKill s.bpc = true) → ∀ i, i < c.N →
        s.finished i = true
  kOrd : (isKill s.bpc = true → s.killOrder = (List.range' s.tp (c.N - s.tp)).reverse) ∧
        (isKill s.bpc = false → s.killOrder = [])
  kDead : isKill s.bpc = true → ∀ i, s.tp ≤ i → i < c.N →
        (s.slots i).state = .dead ∧ s.wpc i = .halted
  kIdle : KillCl s
  startCl : s.bpc = .start → s.tp = 0

theorem updState_apply (f : Nat → DSlot) (i : Nat) (st : TState) (j : Nat) :
    updState f i st j = if j = i then { f i with state := st } else f j := rfl

theorem updState_state (f : Nat → DSlot) (i : Nat) (st : TState) (j : Nat) :
    (updState f i st j).state = if j = i then st else (f j).state := by
  unfold updState
  by_cases h : j = i <;> simp [h]

theorem updState_index (f : Nat → DSlot) (i : Nat) (st : TState) (j : Nat) :
    (updState f i st j).index = (f j).index := by
  unfold updState
  by_cases h : j = i <;> simp [h]

theorem updState_numThreads (f : Nat → DSlot) (i : Nat) (st : TState) (j : Nat) :
    (updState f i st j).numThreads = (f j).numThreads := by
  unfold updState
  by_cases h : j = i <;> simp [h]

theorem updState_alg (f : Nat → DSlot) (i : Nat) (st : TState) (j : Nat) :
    (updState f i st j).alg = (f j).alg := by
  unfold updState
  by_cases h : j = i <;> simp [h]

theorem finCountF_le (N : Nat) (f : Nat → Bool) : finCountF N f ≤ N := by
  unfold finCountF
  calc ((Finset.range N).filter (fun i => f i = true)).card
      ≤ (Finset.range N).card := Finset.card_filter_le _ _
    _ = N := Finset.card_range N

theorem finCountF_update (N : Nat) (f : Nat → Bool) (i : Nat) (hi : i < N)
    (hf : f i = false) :
    finCountF N (Function.update f i true) = finCountF N f + 1 := by
  unfold finCountF
  have key : (Finset.range N).filter (fun j => (Function.update f i true) j = true)
      = insert i ((Finset.range N).filter (fun j => f j = true)) := by
    ext j
    simp only [Finset.mem_filter, Finset.mem_insert, Finset.mem_range,
      Function.update_apply]
    by_cases hj : j = i
    · subst hj
      simp [hi]
    · simp [hj]
  rw [key, Finset.card_insert_of_not_mem]
  simp [hf]

theorem finCountF_lt (N : Nat) (f : Nat → Bool) (i : Nat) (hi : i < N)
    (hf : f i = false) : finCountF N f < N := by
  unfold finCountF
  have : ((Finset.range N).filter (fun j => f j = true)) ⊆
      (Finset.range N).erase i := by
    intro j hj
    simp only [Finset.mem_filter, Finset.mem_range] at hj
    have hji : j ≠ i := by
      intro he
      rw [he] at hj
      rw [hf] at hj
      exact absurd hj.2 (by simp)
    exact Finset.mem_erase.mpr ⟨hji, Finset.mem_range.mpr hj.1⟩
  calc ((Finset.range N).filter (fun j => f j = true)).card
      ≤ ((Finset.range N).erase i).card := Finset.card_le_card this
    _ < (Finset.range N).card :=
        Finset.card_erase_lt_of_mem (Finset.mem_range.mpr hi)
    _ = N := Finset.card_range N

theorem finCountF_all (N : Nat) (f : Nat → Bool) (h : ∀ i, i < N → f i = true) :
    finCountF N f = N := by
  unfold finCountF
  rw [Finset.filter_true_of_mem]
  · exact Finset.card_range N
  · intro i hi
    exact h i (Finset.mem_range.mp hi)

theorem finCountF_eqOn (N : Nat) (f g : Nat → Bool)
    (h : ∀ i, i < N → f i = g i) : finCountF N f = finCountF N g := by
  unfold finCountF
  congr 1
  apply Finset.filter_congr
  intro i hi
  rw [h i (Finset.mem_range.mp hi)]

theorem Inv_st0 (c : Cfg) (hN : 2 ≤ c.N) : Inv c st0 := by
  have hfc : finCount c st0 = 0 := by
    unfold finCount finCountF st0
    simp
  refine
    { wok := ?_, l1 := ?_, l2 := ?_, unb := ?_, tpLe := ?_, predisp := ?_,
      disp := ?_, cnt := ?_, sig := ?_, fSpawn := ?_, fPost := ?_, tpPost := ?_,
      spawnCl := ?_, hsSetCl := ?_, hsPollCl := ?_, hsGoCl := ?_, hsSigCl := ?_,
      pollCl := ?_, rdIdle := ?_, allFin := ?_, kOrd := ?_, kDead := ?_,
      kIdle := ?_, startCl := ?_ }
  · intro i
    exact ⟨Nat.zero_le i, rfl⟩
  · intro i
    simp [st0]
  · intro e he
    simp [st0] at he
  · intro i _
    rfl
  · simp [st0]
  · intro i _
    exact ⟨Or.inl rfl, Or.inl rfl, rfl, rfl⟩
  · intro i hi
    simp [st0, dspCount] at hi
  · rw [hfc]
    rfl
  · rw [hfc]
    have h0 : ¬ ((0 : Nat) = c.N) := by omega
    simp [st0, h0]
  · intro h
    simp [st0] at h
  · intro h
    simp [st0, counterSet] at h
  · intro h
    simp [st0, counterSet] at h
  · intro _ i _
    rfl
  · intro i h
    simp [st0] at h
  · intro i h
    simp [st0] at h
  · intro i h
    simp [st0] at h
  · intro i h
    simp [st0] at h
  · intro j h
    simp [st0] at h
  · intro h
    simp [st0] at h
  · intro h
    rcases h with h | h
    · simp [st0] at h
    · simp [st0, isKill] at h
  · constructor
    · intro h
      simp [st0, isKill] at h
    · intro _
      rfl
  · intro h
    simp [st0, isKill] at h
  · exact trivial
  · intro _
    rfl

/-- A worker id outside `[0, N)` (or a worker the pool has not spawned) is
`unborn`; any worker with a live control point is below `c.N`. -/
theorem wpc_lt (c : Cfg) (s : St) (k : Nat) (h : Inv c s)
    (hw : s.wpc k ≠ .unborn) : k < c.N := by
  by_contra hk
  exact hw (h.unb k (by omega))

theorem wkStep_inv_atTop (c : Cfg) (s : St) (k : Nat) (h : Inv c s)
    (hw : s.wpc k = .atTop) :
    Inv c { s with slots := updState s.slots k .idle,
                   wpc := Function.update s.wpc k .toWait } := by
  have hkN : k < c.N := wpc_lt c s k h (by rw [hw]; simp)
  have hwk := h.wok k
  unfold WOk at hwk
  rw [hw] at hwk
  simp only [WOkA] at hwk
  refine
    { l1 := h.l1, l2 := h.l2, tpLe := h.tpLe, cnt := h.cnt, sig := h.sig,
      tpPost := h.tpPost, hsSetCl := h.hsSetCl, hsPollCl := h.hsPollCl,
      allFin := h.allFin, kOrd := h.kOrd, wok := ?_, unb := ?_,
      predisp := ?_, disp := ?_, fSpawn := ?_, fPost := ?_, spawnCl := ?_,
      hsGoCl := ?_, hsSigCl := ?_, pollCl := ?_, rdIdle := ?_, kDead := ?_,
      kIdle := ?_, startCl := h.startCl }
  · -- wok
    intro i
    unfold WOk
    dsimp only
    by_cases hik : i = k
    · subst hik
      rw [Function.update_same, updState_state, if_pos rfl]
      have hrf : s.ranJob i = s.finished i := by
        rcases hwk with ⟨_, hr, hf⟩ | ⟨_, hr, hf⟩ <;> rw [hr, hf]
      simp [WOkA, hrf]
    · rw [Function.update_noteq hik, updState_state, if_neg hik]
      exact h.wok i
  · -- unb
    intro i hi
    dsimp only
    rw [Function.update_noteq (by omega)]
    exact h.unb i hi
  · -- predisp
    intro i hi
    have hp := h.predisp i hi
    unfold PreW at hp ⊢
    dsimp only
    by_cases hik : i = k
    · subst hik
      rw [Function.update_same, updState_state, if_pos rfl]
      exact ⟨by simp, Or.inr rfl, hp.2.2⟩
    · rw [Function.update_noteq hik, updState_state, if_neg hik]
      exact hp
  · -- disp
    intro i hi hf
    dsimp only at hf ⊢
    rw [updState_state]
    by_cases hik : i = k
    · subst hik
      have := h.disp i hi hf
      rcases hwk with ⟨hst, _, _⟩ | ⟨_, _, hfin⟩
      · rw [this] at hst
        simp at hst
      · rw [hf] at hfin
        simp at hfin
    · rw [if_neg hik]
      exact h.disp i hi hf
  · -- fSpawn
    intro hb i hi
    have := h.fSpawn hb i hi
    dsimp only
    rw [updState_index, updState_numThreads, updState_alg]
    exact this
  · -- fPost
    intro hb i hi
    have := h.fPost hb i hi
    dsimp only
    rw [updState_index, updState_numThreads, updState_alg]
    exact this
  · -- spawnCl
    intro hb i hi
    have := h.spawnCl hb i hi
    dsimp only
    by_cases hik : i = k
    · subst hik
      rw [hw] at this
      simp at this
    · rw [Function.update_noteq hik]
      exact this
  · -- hsGoCl
    intro i hb
    obtain ⟨h1, h2⟩ := h.hsGoCl i hb
    refine ⟨h1, ?_⟩
    dsimp only
    rw [updState_state]
    by_cases hik : i = k
    · rw [if_pos hik]
    · rw [if_neg hik]
      exact h2
  · -- hsSigCl
    intro i hb
    obtain ⟨h1, h2, h3, h4, h5⟩ := h.hsSigCl i hb
    have hik : i ≠ k := by
      intro he
      rw [he, hw] at h5
      simp at h5
    dsimp only
    rw [updState_state, if_neg hik, Function.update_noteq hik]
    exact ⟨h1, h2, h3, h4, h5⟩
  · -- pollCl
    intro j hb
    obtain ⟨h1, h2⟩ := h.pollCl j hb
    refine ⟨h1, fun i hi => ?_⟩
    dsimp only
    rw [updState_state]
    by_cases hik : i = k
    · rw [if_pos hik]
    · rw [if_neg hik]
      exact h2 i hi
  · -- rdIdle
    intro hb i hi
    dsimp only
    rw [updState_state]
    by_cases hik : i = k
    · rw [if_pos hik]
    · rw [if_neg hik]
      exact h.rdIdle hb i hi
  · -- kDead
    intro hb i hi hiN
    obtain ⟨h1, h2⟩ := h.kDead hb i hi hiN
    have hik : i ≠ k := by
      intro he
      rw [he, hw] at h2
      simp at h2
    dsimp only
    rw [updState_state, if_neg hik, Function.update_noteq hik]
    exact ⟨h1, h2⟩
  · -- kIdle
    have hki := h.kIdle
    unfold KillCl at hki ⊢
    dsimp only
    cases hb : s.bpc <;> rw [hb] at hki <;> simp only []
    case killCheck =>
      intro i hi
      rw [updState_state]
      by_cases hik : i = k
      · rw [if_pos hik]
      · rw [if_neg hik]
        exact hki i hi
    case killPoll =>
      refine ⟨hki.1, fun i hi => ?_⟩
      rw [updState_state]
      by_cases hik : i = k
      · rw [if_pos hik]
      · rw [if_neg hik]
        exact hki.2 i hi
    case killSet =>
      refine ⟨hki.1, fun i hi => ?_⟩
      rw [updState_state]
      by_cases hik : i = k
      · rw [if_pos hik]
      · rw [if_neg hik]
        exact hki.2 i hi
    case killSignal =>
      obtain ⟨h1, h2, h3⟩ := hki
      have hik : s.tp - 1 ≠ k := by
        intro he
        rw [he] at h2
        rcases h2 with h2 | h2 <;>
          rcases hwk with ⟨hst2, _⟩ | ⟨hst2, _⟩ <;> rw [h2] at hst2 <;>
            simp at hst2
      refine ⟨h1, ?_, fun i hi => ?_⟩
      · rw [updState_state, if_neg hik]
        exact h2
      · rw [updState_state]
        by_cases hik2 : i = k
        · rw [if_pos hik2]
        · rw [if_neg hik2]
          exact h3 i hi
    case killWaitDead =>
      obtain ⟨h1, h2, h3⟩ := hki
      have hik : s.tp - 1 ≠ k := by
        intro he
        rw [he] at h2
        rcases hwk with ⟨hst, _⟩ | ⟨hst, _⟩ <;> rw [hst] at h2 <;> simp at h2
      refine ⟨h1, ?_, fun i hi => ?_⟩
      · rw [updState_state, if_neg hik]
        exact h2
      · rw [updState_state]
        by_cases hik2 : i = k
        · rw [if_pos hik2]
        · rw [if_neg hik2]
          exact h3 i hi
    case killDetach =>
      obtain ⟨h1, h2, h3⟩ := hki
      have hik : s.tp - 1 ≠ k := by
        intro he
        rw [he] at h2
        rcases hwk with ⟨hst, _⟩ | ⟨hst, _⟩ <;> rw [hst] at h2 <;> simp at h2
      refine ⟨h1, ?_, fun i hi => ?_⟩
      · rw [updState_state, if_neg hik]
        exact h2
      · rw [updState_state]
        by_cases hik2 : i = k
        · rw [if_pos hik2]
        · rw [if_neg hik2]
          exact h3 i hi
    case killDone => exact hki

theorem wkStep_inv_toWait (c : Cfg) (s : St) (k : Nat) (h : Inv c s)
    (hw : s.wpc k = .toWait) :
    Inv c { s with wpc := Function.update s.wpc k .sleeping } := by
  have hkN : k < c.N := wpc_lt c s k h (by rw [hw]; simp)
  have hwk := h.wok k
  unfold WOk at hwk
  rw [hw] at hwk
  refine
    { l1 := h.l1, l2 := h.l2, tpLe := h.tpLe, cnt := h.cnt, sig := h.sig,
      tpPost := h.tpPost, hsSetCl := h.hsSetCl, hsPollCl := h.hsPollCl,
      allFin := h.allFin, kOrd := h.kOrd, disp := h.disp, fSpawn := h.fSpawn,
      fPost := h.fPost, hsGoCl := h.hsGoCl, pollCl := h.pollCl,
      rdIdle := h.rdIdle, kIdle := h.kIdle, wok := ?_, unb := ?_,
      predisp := ?_, spawnCl := ?_, hsSigCl := ?_, kDead := ?_, startCl := h.startCl }
  · -- wok
    intro i
    unfold WOk
    dsimp only
    by_cases hik : i = k
    · subst hik
      rw [Function.update_same]
      exact hwk
    · rw [Function.update_noteq hik]
      exact h.wok i
  · -- unb
    intro i hi
    dsimp only
    rw [Function.update_noteq (by omega)]
    exact h.unb i hi
  · -- predisp
    intro i hi
    have hp := h.predisp i hi
    unfold PreW at hp ⊢
    dsimp only
    by_cases hik : i = k
    · subst hik
      rw [Function.update_same]
      exact ⟨by simp, hp.2⟩
    · rw [Function.update_noteq hik]
      exact hp
  · -- spawnCl
    intro hb i hi
    have := h.spawnCl hb i hi
    dsimp only
    by_cases hik : i = k
    · subst hik
      rw [hw] at this
      simp at this
    · rw [Function.update_noteq hik]
      exact this
  · -- hsSigCl
    intro i hb
    obtain ⟨h1, h2, h3, h4, h5⟩ := h.hsSigCl i hb
    refine ⟨h1, h2, h3, h4, ?_⟩
    dsimp only
    by_cases hik : i = k
    · subst hik
      rw [Function.update_same]
      simp
    · rw [Function.update_noteq hik]
      exact h5
  · -- kDead
    intro hb i hi hiN
    obtain ⟨h1, h2⟩ := h.kDead hb i hi hiN
    have hik : i ≠ k := by
      intro he
      rw [he, hw] at h2
      simp at h2
    dsimp only
    rw [Function.update_noteq hik]
    exact ⟨h1, h2⟩

theorem dsp_pos_counterSet (N : Nat) (b : BPC) (h : 1 ≤ dspCount N b) :
    counterSet b = true := by
  cases b <;> first
    | rfl
    | (simp [dspCount] at h)

theorem dsp_le_fs (N : Nat) (b : BPC) : dspCount N b ≤ fsCount N b := by
  cases b <;> simp [dspCount, fsCount]

/-- A worker at a control point past the dispatch site has been dispatched. -/
theorem dispatched_of_wpc (c : Cfg) (s : St) (k : Nat) (h : Inv c s)
    (hw : s.wpc k = .woken ∨ s.wpc k = .afterJob) :
    k < dspCount c.N s.bpc := by
  by_contra hk
  have hp := (h.predisp k (by omega)).1
  rcases hw with hw | hw <;>
    rcases hp with hp | hp | hp | hp <;> rw [hw] at hp <;> simp at hp

theorem wkStep_inv_wokenRun (c : Cfg) (s : St) (k : Nat) (h : Inv c s)
    (hw : s.wpc k = .woken) (hst : (s.slots k).state = .running) :
    Inv c { s with
            log := if (s.slots k).alg then
                s.log ++ [⟨k, (s.slots k).index, (s.slots k).numThreads⟩]
              else s.log,
            ranJob := Function.update s.ranJob k true,
            wpc := Function.update s.wpc k .afterJob } := by
  have hkN : k < c.N := wpc_lt c s k h (by rw [hw]; simp)
  have hwk := h.wok k
  unfold WOk at hwk
  rw [hw] at hwk
  simp only [WOkA] at hwk
  have hrf : s.ranJob k = false ∧ s.finished k = false := by
    rcases hwk with ⟨_, hr, hf⟩ | ⟨hd, _, _⟩
    · exact ⟨hr, hf⟩
    · rw [hst] at hd
      simp at hd
  have hkd : k < dspCount c.N s.bpc := dispatched_of_wpc c s k h (Or.inl hw)
  have hcs : counterSet s.bpc = true := dsp_pos_counterSet c.N s.bpc (by omega)
  have hfields := h.fPost hcs k hkN
  have halg : (s.slots k).alg = c.hasJob := by
    have := hfields.2.2
    have hfs : k < fsCount c.N s.bpc := by
      have := dsp_le_fs c.N s.bpc
      omega
    simpa [hfs] using this
  have hidx : (s.slots k).index = k := hfields.1
  have hnt : (s.slots k).numThreads = c.N := hfields.2.1
  refine
    { tpLe := h.tpLe, cnt := h.cnt, sig := h.sig,
      tpPost := h.tpPost, hsSetCl := h.hsSetCl, hsPollCl := h.hsPollCl,
      allFin := h.allFin, kOrd := h.kOrd, disp := h.disp, fSpawn := h.fSpawn,
      fPost := h.fPost, hsGoCl := h.hsGoCl, pollCl := h.pollCl,
      rdIdle := h.rdIdle, kIdle := h.kIdle, wok := ?_, l1 := ?_, l2 := ?_,
      unb := ?_, predisp := ?_, spawnCl := ?_, hsSigCl := ?_, kDead := ?_, startCl := h.startCl }
  · -- wok
    intro i
    unfold WOk
    dsimp only
    by_cases hik : i = k
    · subst hik
      rw [Function.update_same, Function.update_same]
      simp [WOkA, hst, hrf.2]
    · rw [Function.update_noteq hik, Function.update_noteq hik]
      exact h.wok i
  · -- l1
    intro i
    have hold := h.l1 i
    dsimp only
    rw [halg]
    by_cases hik : i = k
    · rw [hik] at hold ⊢
      rw [hrf.1] at hold
      simp at hold
      rw [Function.update_same]
      by_cases hJ : c.hasJob = true
      · rw [if_pos hJ, List.map_append, List.count_append, hold]
        simp [hJ, List.count_singleton']
      · rw [if_neg hJ, hold]
        simp [hJ]
    · rw [Function.update_noteq hik, ← hold]
      by_cases hJ : c.hasJob = true
      · rw [if_pos hJ, List.map_append, List.count_append]
        have hz : List.count i (List.map Call.worker
            [(⟨k, (s.slots k).index, (s.slots k).numThreads⟩ : Call)]) = 0 := by
          simp only [List.map_cons, List.map_nil]
          rw [List.count_singleton']
          simp only [ite_eq_right_iff]
          intro hki
          exact absurd hki.symm hik
        rw [hz, Nat.add_zero]
      · rw [if_neg hJ]
  · -- l2
    intro e he
    dsimp only at he
    rw [halg] at he
    by_cases hJ : c.hasJob = true
    · rw [if_pos hJ] at he
      rw [List.mem_append] at he
      rcases he with he | he
      · exact h.l2 e he
      · rw [List.mem_singleton] at he
        subst he
        exact ⟨by rw [hidx], by rw [hnt], hkN⟩
    · rw [if_neg hJ] at he
      exact h.l2 e he
  · -- unb
    intro i hi
    dsimp only
    rw [Function.update_noteq (by omega)]
    exact h.unb i hi
  · -- predisp
    intro i hi
    dsimp only at hi
    have hik : i ≠ k := by omega
    have hp := h.predisp i hi
    unfold PreW at hp ⊢
    dsimp only
    rw [Function.update_noteq hik, Function.update_noteq hik]
    exact hp
  · -- spawnCl
    intro hb i hi
    have := h.spawnCl hb i hi
    dsimp only
    by_cases hik : i = k
    · subst hik
      rw [hw] at this
      simp at this
    · rw [Function.update_noteq hik]
      exact this
  · -- hsSigCl
    intro i hb
    obtain ⟨h1, h2, h3, h4, h5⟩ := h.hsSigCl i hb
    have hik : i ≠ k := by
      intro he
      rw [he, hw] at h5
      simp at h5
    dsimp only
    rw [Function.update_noteq hik, Function.update_noteq hik]
    exact ⟨h1, h2, h3, h4, h5⟩
  · -- kDead
    intro hb i hi hiN
    obtain ⟨h1, h2⟩ := h.kDead hb i hi hiN
    have hik : i ≠ k := by
      intro he
      rw [he, hw] at h2
      simp at h2
    dsimp only
    rw [Function.update_noteq hik]
    exact ⟨h1, h2⟩

theorem wkStep_inv_wokenDone (c : Cfg) (s : St) (k : Nat) (h : Inv c s)
    (hw : s.wpc k = .woken) (hst : (s.slots k).state = .done) :
    Inv c { s with wpc := Function.update s.wpc k .exiting } := by
  have hkN : k < c.N := wpc_lt c s k h (by rw [hw]; simp)
  have hwk := h.wok k
  unfold WOk at hwk
  rw [hw] at hwk
  simp only [WOkA] at hwk
  have hrf : s.ranJob k = true ∧ s.finished k = true := by
    rcases hwk with ⟨hd, _, _⟩ | ⟨_, hr, hf⟩
    · rw [hst] at hd
      simp at hd
    · exact ⟨hr, hf⟩
  refine
    { l1 := h.l1, l2 := h.l2, tpLe := h.tpLe, cnt := h.cnt, sig := h.sig,
      tpPost := h.tpPost, hsSetCl := h.hsSetCl, hsPollCl := h.hsPollCl,
      allFin := h.allFin, kOrd := h.kOrd, disp := h.disp, fSpawn := h.fSpawn,
      fPost := h.fPost, hsGoCl := h.hsGoCl, pollCl := h.pollCl,
      rdIdle := h.rdIdle, kIdle := h.kIdle, wok := ?_, unb := ?_,
      predisp := ?_, spawnCl := ?_, hsSigCl := ?_, kDead := ?_, startCl := h.startCl }
  · -- wok
    intro i
    unfold WOk
    dsimp only
    by_cases hik : i = k
    · subst hik
      rw [Function.update_same]
      simp [WOkA, hst, hrf.1, hrf.2]
    · rw [Function.update_noteq hik]
      exact h.wok i
  · -- unb
    intro i hi
    dsimp only
    rw [Function.update_noteq (by omega)]
    exact h.unb i hi
  · -- predisp
    intro i hi
    dsimp only at hi
    have hp := h.predisp i hi
    unfold PreW at hp ⊢
    dsimp only
    by_cases hik : i = k
    · subst hik
      rcases hp.1 with hx | hx | hx | hx <;> rw [hw] at hx <;> simp at hx
    · rw [Function.update_noteq hik]
      exact hp
  · -- spawnCl
    intro hb i hi
    have := h.spawnCl hb i hi
    dsimp only
    by_cases hik : i = k
    · subst hik
      rw [hw] at this
      simp at this
    · rw [Function.update_noteq hik]
      exact this
  · -- hsSigCl
    intro i hb
    obtain ⟨h1, h2, h3, h4, h5⟩ := h.hsSigCl i hb
    have hik : i ≠ k := by
      intro he
      rw [he, hw] at h5
      simp at h5
    dsimp only
    rw [Function.update_noteq hik]
    exact ⟨h1, h2, h3, h4, h5⟩
  · -- kDead
    intro hb i hi hiN
    obtain ⟨h1, h2⟩ := h.kDead hb i hi hiN
    have hik : i ≠ k := by
      intro he
      rw [he, hw] at h2
      simp at h2
    dsimp only
    rw [Function.update_noteq hik]
    exact ⟨h1, h2⟩

theorem wkStep_inv_exiting (c : Cfg) (s : St) (k : Nat) (h : Inv c s)
    (hw : s.wpc k = .exiting) :
    Inv c { s with slots := updState s.slots k .dead,
                   wpc := Function.update s.wpc k .halted } := by
  have hkN : k < c.N := wpc_lt c s k h (by rw [hw]; simp)
  have hwk := h.wok k
  unfold WOk at hwk
  rw [hw] at hwk
  simp only [WOkA] at hwk
  obtain ⟨hst, hr, hf⟩ := hwk
  refine
    { l1 := h.l1, l2 := h.l2, tpLe := h.tpLe, cnt := h.cnt, sig := h.sig,
      tpPost := h.tpPost, hsSetCl := h.hsSetCl, hsPollCl := h.hsPollCl,
      allFin := h.allFin, kOrd := h.kOrd, wok := ?_, unb := ?_,
      predisp := ?_, disp := ?_, fSpawn := ?_, fPost := ?_, spawnCl := ?_,
      hsGoCl := ?_, hsSigCl := ?_, pollCl := ?_, rdIdle := ?_, kDead := ?_,
      kIdle := ?_, startCl := h.startCl }
  · -- wok
    intro i
    unfold WOk
    dsimp only
    by_cases hik : i = k
    · subst hik
      rw [Function.update_same, updState_state, if_pos rfl]
      simp [WOkA, hr, hf]
    · rw [Function.update_noteq hik, updState_state, if_neg hik]
      exact h.wok i
  · -- unb
    intro i hi
    dsimp only
    rw [Function.update_noteq (by omega)]
    exact h.unb i hi
  · -- predisp
    intro i hi
    dsimp only at hi
    have hp := h.predisp i hi
    unfold PreW at hp ⊢
    dsimp only
    by_cases hik : i = k
    · subst hik
      rcases hp.1 with hx | hx | hx | hx <;> rw [hw] at hx <;> simp at hx
    · rw [Function.update_noteq hik, updState_state, if_neg hik]
      exact hp
  · -- disp
    intro i hi hf2
    dsimp only at hi hf2 ⊢
    rw [updState_state]
    by_cases hik : i = k
    · subst hik
      rw [hf2] at hf
      simp at hf
    · rw [if_neg hik]
      exact h.disp i hi hf2
  · -- fSpawn
    intro hb i hi
    have := h.fSpawn hb i hi
    dsimp only
    rw [updState_index, updState_numThreads, updState_alg]
    exact this
  · -- fPost
    intro hb i hi
    have := h.fPost hb i hi
    dsimp only
    rw [updState_index, updState_numThreads, updState_alg]
    exact this
  · -- spawnCl
    intro hb i hi
    have := h.spawnCl hb i hi
    dsimp only
    by_cases hik : i = k
    · subst hik
      rw [hw] at this
      simp at this
    · rw [Function.update_noteq hik]
      exact this
  · -- hsGoCl
    intro i hb
    obtain ⟨h1, h2⟩ := h.hsGoCl i hb
    have hik : i ≠ k := by
      intro he
      rw [he] at h2
      rw [h2] at hst
      simp at hst
    refine ⟨h1, ?_⟩
    dsimp only
    rw [updState_state, if_neg hik]
    exact h2
  · -- hsSigCl
    intro i hb
    obtain ⟨h1, h2, h3, h4, h5⟩ := h.hsSigCl i hb
    have hik : i ≠ k := by
      intro he
      rw [he, hw] at h5
      simp at h5
    dsimp only
    rw [updState_state, if_neg hik, Function.update_noteq hik]
    exact ⟨h1, h2, h3, h4, h5⟩
  · -- pollCl
    intro j hb
    obtain ⟨h1, h2⟩ := h.pollCl j hb
    refine ⟨h1, fun i hi => ?_⟩
    have hik : i ≠ k := by
      intro he
      have := h2 i hi
      rw [he] at this
      rw [this] at hst
      simp at hst
    dsimp only
    rw [updState_state, if_neg hik]
    exact h2 i hi
  · -- rdIdle
    intro hb i hi
    have := h.rdIdle hb i hi
    have hik : i ≠ k := by
      intro he
      rw [he] at this
      rw [this] at hst
      simp at hst
    dsimp only
    rw [updState_state, if_neg hik]
    exact this
  · -- kDead
    intro hb i hi hiN
    obtain ⟨h1, h2⟩ := h.kDead hb i hi hiN
    have hik : i ≠ k := by
      intro he
      rw [he, hw] at h2
      simp at h2
    dsimp only
    rw [updState_state, if_neg hik, Function.update_noteq hik]
    exact ⟨h1, h2⟩
  · -- kIdle
    have hki := h.kIdle
    unfold KillCl at hki ⊢
    dsimp only
    cases hb : s.bpc <;> rw [hb] at hki <;> simp only []
    case killCheck =>
      intro i hi
      have := hki i hi
      have hik : i ≠ k := by
        intro he
        rw [he] at this
        rw [this] at hst
        simp at hst
      rw [updState_state, if_neg hik]
      exact this
    case killPoll =>
      refine ⟨hki.1, fun i hi => ?_⟩
      have := hki.2 i hi
      have hik : i ≠ k := by
        intro he
        rw [he] at this
        rw [this] at hst
        simp at hst
      rw [updState_state, if_neg hik]
      exact this
    case killSet =>
      refine ⟨hki.1, fun i hi => ?_⟩
      have := hki.2 i hi
      have hik : i ≠ k := by
        intro he
        rw [he] at this
        rw [this] at hst
        simp at hst
      rw [updState_state, if_neg hik]
      exact this
    case killSignal =>
      obtain ⟨h1, h2, h3⟩ := hki
      refine ⟨h1, ?_, fun i hi => ?_⟩
      · rw [updState_state]
        by_cases hik : s.tp - 1 = k
        · rw [if_pos hik]
          right
          rfl
        · rw [if_neg hik]
          exact h2
      · have := h3 i hi
        have hik : i ≠ k := by
          intro he
          rw [he] at this
          rw [this] at hst
          simp at hst
        rw [updState_state, if_neg hik]
        exact this
    case killWaitDead =>
      obtain ⟨h1, h2, h3⟩ := hki
      refine ⟨h1, ?_, fun i hi => ?_⟩
      · rw [updState_state]
        by_cases hik : s.tp - 1 = k
        · rw [if_pos hik]
          right
          rfl
        · rw [if_neg hik]
          exact h2
      · have := h3 i hi
        have hik : i ≠ k := by
          intro he
          rw [he] at this
          rw [this] at hst
          simp at hst
        rw [updState_state, if_neg hik]
        exact this
    case killDetach =>
      obtain ⟨h1, h2, h3⟩ := hki
      have hik : s.tp - 1 ≠ k := by
        intro he
        rw [he] at h2
        rw [h2] at hst
        simp at hst
      refine ⟨h1, ?_, fun i hi => ?_⟩
      · rw [updState_state, if_neg hik]
        exact h2
      · have := h3 i hi
        have hik2 : i ≠ k := by
          intro he
          rw [he] at this
          rw [this] at hst
          simp at hst
        rw [updState_state, if_neg hik2]
        exact this
    case killDone => exact hki

theorem wkStep_inv_afterJob (c : Cfg) (s : St) (k : Nat) (h : Inv c s)
    (hw : s.wpc k = .afterJob) : Inv c (wkStep s k) := by
  have hkN : k < c.N := wpc_lt c s k h (by rw [hw]; simp)
  have hwk := h.wok k
  unfold WOk at hwk
  rw [hw] at hwk
  simp only [WOkA] at hwk
  obtain ⟨hst, hr, hf⟩ := hwk
  have hkd : k < dspCount c.N s.bpc := dispatched_of_wpc c s k h (Or.inr hw)
  have hcs : counterSet s.bpc = true := dsp_pos_counterSet c.N s.bpc (by omega)
  have hfC : finCount c s < c.N := finCountF_lt c.N s.finished k hkN hf
  have hcnt : s.counter = (c.N : Int) - (finCount c s : Int) := by
    have := h.cnt
    rw [hcs] at this
    simpa using this
  have hfC' : finCountF c.N (Function.update s.finished k true)
      = finCount c s + 1 := finCountF_update c.N s.finished k hkN hf
  have hsig0 : s.bossSignals = 0 := by
    have := h.sig
    rw [if_neg (by omega)] at this
    exact this
  unfold wkStep
  rw [hw]
  by_cases hz : s.counter - 1 = 0
  · rw [if_pos hz]
    have hNfin : finCount c s + 1 = c.N := by omega
    refine
      { l1 := h.l1, l2 := h.l2, tpLe := h.tpLe, wok := ?_, unb := ?_,
        predisp := ?_, disp := ?_, cnt := ?_, sig := ?_, fSpawn := ?_,
        fPost := ?_, tpPost := ?_, spawnCl := ?_, hsSetCl := ?_,
        hsPollCl := ?_, hsGoCl := ?_, hsSigCl := ?_, pollCl := ?_,
        rdIdle := ?_, allFin := ?_, kOrd := ?_, kDead := ?_, kIdle := ?_,
        startCl := ?_ }
    · -- wok
      intro i
      unfold WOk
      dsimp only
      by_cases hik : i = k
      · subst hik
        rw [Function.update_same, Function.update_same]
        simp [WOkA, hst, hr]
      · rw [Function.update_noteq hik, Function.update_noteq hik]
        exact h.wok i
    · -- unb
      intro i hi
      dsimp only
      rw [Function.update_noteq (by omega)]
      exact h.unb i hi
    · -- predisp
      intro i hi
      dsimp only at hi
      have hdd : dspCount c.N (if s.bpc = .sleepingB then .poll 0 else s.bpc)
          = dspCount c.N s.bpc := by
        by_cases hbp : s.bpc = .sleepingB
        · rw [if_pos hbp, hbp]
          rfl
        · rw [if_neg hbp]
      rw [hdd] at hi
      have hik : i ≠ k := by omega
      have hp := h.predisp i hi
      unfold PreW at hp ⊢
      dsimp only
      rw [Function.update_noteq hik, Function.update_noteq hik]
      exact hp
    · -- disp
      intro i hi hf2
      dsimp only at hi hf2 ⊢
      have hdd : dspCount c.N (if s.bpc = .sleepingB then .poll 0 else s.bpc)
          = dspCount c.N s.bpc := by
        by_cases hbp : s.bpc = .sleepingB
        · rw [if_pos hbp, hbp]
          rfl
        · rw [if_neg hbp]
      rw [hdd] at hi
      by_cases hik : i = k
      · rw [hik, Function.update_same] at hf2
        simp at hf2
      · rw [Function.update_noteq hik] at hf2
        exact h.disp i hi hf2
    · -- cnt
      dsimp only
      have hcc : counterSet (if s.bpc = .sleepingB then .poll 0 else s.bpc)
          = true := by
        by_cases hbp : s.bpc = .sleepingB
        · rw [if_pos hbp]
          rfl
        · rw [if_neg hbp]
          exact hcs
      rw [hcc]
      show s.counter - 1 = _
      rw [if_pos rfl]
      unfold finCount
      dsimp only
      rw [hfC']
      push_cast
      omega
    · -- sig
      dsimp only
      unfold finCount
      dsimp only
      rw [hfC', if_pos hNfin, hsig0]
    · -- fSpawn
      intro hb i hi
      dsimp only at hb hi ⊢
      by_cases hbp : s.bpc = .sleepingB
      · rw [if_pos hbp] at hb
        simp at hb
      · rw [if_neg hbp] at hb
        exact h.fSpawn hb i hi
    · -- fPost
      intro _ i hi
      dsimp only at hi ⊢
      have := h.fPost hcs i hi
      have hff : fsCount c.N (if s.bpc = .sleepingB then .poll 0 else s.bpc)
          = fsCount c.N s.bpc := by
        by_cases hbp : s.bpc = .sleepingB
        · rw [if_pos hbp, hbp]
          rfl
        · rw [if_neg hbp]
      rw [hff]
      exact this
    · -- tpPost
      intro _ hk2
      dsimp only at hk2
      by_cases hbp : s.bpc = .sleepingB
      · exact h.tpPost hcs (by rw [hbp]; rfl)
      · rw [if_neg hbp] at hk2
        exact h.tpPost hcs hk2
    · -- spawnCl
      intro hb i hi
      dsimp only at hb hi ⊢
      by_cases hbp : s.bpc = .sleepingB
      · rw [if_pos hbp] at hb
        rcases hb with hb | hb <;> simp at hb
      · rw [if_neg hbp] at hb
        rcases hb with hb | hb <;> rw [hb] at hcs <;> simp [counterSet] at hcs
    · -- hsSetCl
      intro i hb
      dsimp only at hb
      by_cases hbp : s.bpc = .sleepingB
      · rw [if_pos hbp] at hb
        simp at hb
      · rw [if_neg hbp] at hb
        exact h.hsSetCl i hb
    · -- hsPollCl
      intro i hb
      dsimp only at hb
      by_cases hbp : s.bpc = .sleepingB
      · rw [if_pos hbp] at hb
        simp at hb
      · rw [if_neg hbp] at hb
        exact h.hsPollCl i hb
    · -- hsGoCl
      intro i hb
      dsimp only at hb ⊢
      by_cases hbp : s.bpc = .sleepingB
      · rw [if_pos hbp] at hb
        simp at hb
      · rw [if_neg hbp] at hb
        exact h.hsGoCl i hb
    · -- hsSigCl
      intro i hb
      dsimp only at hb ⊢
      by_cases hbp : s.bpc = .sleepingB
      · rw [if_pos hbp] at hb
        simp at hb
      · rw [if_neg hbp] at hb
        obtain ⟨h1, h2, h3, h4, h5⟩ := h.hsSigCl i hb
        have hik : i ≠ k := by
          intro he
          rw [he, hw] at h5
          simp at h5
        rw [Function.update_noteq hik, Function.update_noteq hik]
        exact ⟨h1, h2, h3, h4, h5⟩
    · -- pollCl
      intro j hb
      dsimp only at hb ⊢
      by_cases hbp : s.bpc = .sleepingB
      · rw [if_pos hbp] at hb
        have hj : j = 0 := by
          cases hb
          rfl
        rw [hj]
        exact ⟨by omega, fun i hi => by omega⟩
      · rw [if_neg hbp] at hb
        exact h.pollCl j hb
    · -- rdIdle
      intro hb i hi
      dsimp only at hb hi ⊢
      by_cases hbp : s.bpc = .sleepingB
      · rw [if_pos hbp] at hb
        simp at hb
      · rw [if_neg hbp] at hb
        exact h.rdIdle hb i hi
    · -- allFin
      intro hb i hi
      dsimp only at hb hi ⊢
      by_cases hik : i = k
      · rw [hik, Function.update_same]
      · rw [Function.update_noteq hik]
        by_cases hbp : s.bpc = .sleepingB
        · rw [if_pos hbp] at hb
          rcases hb with hb | hb
          · simp at hb
          · simp [isKill] at hb
        · rw [if_neg hbp] at hb
          exact h.allFin hb i hi
    · -- kOrd
      dsimp only
      by_cases hbp : s.bpc = .sleepingB
      · rw [if_pos hbp]
        refine ⟨fun hk2 => by simp [isKill] at hk2, fun _ => ?_⟩
        exact h.kOrd.2 (by rw [hbp]; rfl)
      · rw [if_neg hbp]
        exact h.kOrd
    · -- kDead
      intro hb i hi hiN
      dsimp only at hb hi hiN ⊢
      by_cases hbp : s.bpc = .sleepingB
      · rw [if_pos hbp] at hb
        simp [isKill] at hb
      · rw [if_neg hbp] at hb
        obtain ⟨h1, h2⟩ := h.kDead hb i hi hiN
        have hik : i ≠ k := by
          intro he
          rw [he, hw] at h2
          simp at h2
        rw [Function.update_noteq hik]
        exact ⟨h1, h2⟩
    · -- kIdle
      unfold KillCl
      dsimp only
      by_cases hbp : s.bpc = .sleepingB
      · rw [if_pos hbp]
        exact trivial
      · rw [if_neg hbp]
        have hki := h.kIdle
        unfold KillCl at hki
        exact hki
    · -- startCl
      intro hb
      dsimp only at hb ⊢
      by_cases hbp : s.bpc = .sleepingB
      · rw [if_pos hbp] at hb
        simp at hb
      · rw [if_neg hbp] at hb
        rw [hb] at hcs
        simp [counterSet] at hcs
  · rw [if_neg hz]
    have hfin' : finCountF c.N (Function.update s.finished k true) ≠ c.N := by
      intro he
      rw [hfC'] at he
      omega
    refine
      { l1 := h.l1, l2 := h.l2, tpLe := h.tpLe, fSpawn := h.fSpawn,
        tpPost := h.tpPost, hsSetCl := h.hsSetCl, hsPollCl := h.hsPollCl,
        hsGoCl := h.hsGoCl, pollCl := h.pollCl, rdIdle := h.rdIdle,
        kOrd := h.kOrd, kIdle := h.kIdle, wok := ?_, unb := ?_, predisp := ?_,
        disp := ?_, cnt := ?_, sig := ?_, fPost := ?_, spawnCl := ?_,
        hsSigCl := ?_, allFin := ?_, kDead := ?_, startCl := h.startCl }
    · -- wok
      intro i
      unfold WOk
      dsimp only
      by_cases hik : i = k
      · subst hik
        rw [Function.update_same, Function.update_same]
        simp [WOkA, hst, hr]
      · rw [Function.update_noteq hik, Function.update_noteq hik]
        exact h.wok i
    · -- unb
      intro i hi
      dsimp only
      rw [Function.update_noteq (by omega)]
      exact h.unb i hi
    · -- predisp
      intro i hi
      dsimp only at hi
      have hik : i ≠ k := by omega
      have hp := h.predisp i hi
      unfold PreW at hp ⊢
      dsimp only
      rw [Function.update_noteq hik, Function.update_noteq hik]
      exact hp
    · -- disp
      intro i hi hf2
      dsimp only at hi hf2 ⊢
      by_cases hik : i = k
      · rw [hik, Function.update_same] at hf2
        simp at hf2
      · rw [Function.update_noteq hik] at hf2
        exact h.disp i hi hf2
    · -- cnt
      dsimp only
      rw [hcs]
      show s.counter - 1 = _
      rw [if_pos rfl]
      unfold finCount
      dsimp only
      rw [hfC']
      push_cast
      omega
    · -- sig
      dsimp only
      unfold finCount
      dsimp only
      rw [if_neg hfin']
      exact hsig0
    · -- fPost
      intro hb i hi
      exact h.fPost hb i hi
    · -- spawnCl
      intro hb i hi
      rcases hb with hb | hb <;> rw [hb] at hcs <;> simp [counterSet] at hcs
    · -- hsSigCl
      intro i hb
      obtain ⟨h1, h2, h3, h4, h5⟩ := h.hsSigCl i hb
      have hik : i ≠ k := by
        intro he
        rw [he, hw] at h5
        simp at h5
      dsimp only
      rw [Function.update_noteq hik, Function.update_noteq hik]
      exact ⟨h1, h2, h3, h4, h5⟩
    · -- allFin
      intro hb i hi
      dsimp only
      by_cases hik : i = k
      · rw [hik, Function.update_same]
      · rw [Function.update_noteq hik]
        exact h.allFin hb i hi
    · -- kDead
      intro hb i hi hiN
      obtain ⟨h1, h2⟩ := h.kDead hb i hi hiN
      have hik : i ≠ k := by
        intro he
        rw [he, hw] at h2
        simp at h2
      dsimp only
      rw [Function.update_noteq hik]
      exact ⟨h1, h2⟩

theorem wkStep_inv (c : Cfg) (s : St) (k : Nat) (h : Inv c s) :
    Inv c (wkStep s k) := by
  cases hw : s.wpc k with
  | unborn =>
      have e : wkStep s k = s := by
        unfold wkStep
        rw [hw]
      rw [e]
      exact h
  | sleeping =>
      have e : wkStep s k = s := by
        unfold wkStep
        rw [hw]
      rw [e]
      exact h
  | halted =>
      have e : wkStep s k = s := by
        unfold wkStep
        rw [hw]
      rw [e]
      exact h
  | atTop =>
      have e : wkStep s k
          = { s with
              slots := updState s.slots k .idle
              wpc := Function.update s.wpc k .toWait } := by
        unfold wkStep
        rw [hw]
      rw [e]
      exact wkStep_inv_atTop c s k h hw
  | toWait =>
      have e : wkStep s k = { s with wpc := Function.update s.wpc k .sleeping } := by
        unfold wkStep
        rw [hw]
      rw [e]
      exact wkStep_inv_toWait c s k h hw
  | woken =>
      cases hst : (s.slots k).state with
      | running =>
          have e : wkStep s k
              = { s with
                  log := if (s.slots k).alg then
                      s.log ++ [⟨k, (s.slots k).index, (s.slots k).numThreads⟩]
                    else s.log
                  ranJob := Function.update s.ranJob k true
                  wpc := Function.update s.wpc k .afterJob } := by
            unfold wkStep
            rw [hw, hst]
          rw [e]
          exact wkStep_inv_wokenRun c s k h hw hst
      | done =>
          have e : wkStep s k
              = { s with wpc := Function.update s.wpc k .exiting } := by
            unfold wkStep
            rw [hw, hst]
          rw [e]
          exact wkStep_inv_wokenDone c s k h hw hst
      | init =>
          have hwk := h.wok k
          unfold WOk at hwk
          rw [hw] at hwk
          simp only [WOkA] at hwk
          rcases hwk with ⟨hd, _, _⟩ | ⟨hd, _, _⟩ <;> rw [hst] at hd <;> simp at hd
      | idle =>
          have hwk := h.wok k
          unfold WOk at hwk
          rw [hw] at hwk
          simp only [WOkA] at hwk
          rcases hwk with ⟨hd, _, _⟩ | ⟨hd, _, _⟩ <;> rw [hst] at hd <;> simp at hd
      | dead =>
          have hwk := h.wok k
          unfold WOk at hwk
          rw [hw] at hwk
          simp only [WOkA] at hwk
          rcases hwk with ⟨hd, _, _⟩ | ⟨hd, _, _⟩ <;> rw [hst] at hd <;> simp at hd
  | afterJob => exact wkStep_inv_afterJob c s k h hw
  | exiting =>
      have e : wkStep s k
          = { s with
              slots := updState s.slots k .dead
              wpc := Function.update s.wpc k .halted } := by
        unfold wkStep
        rw [hw]
      rw [e]
      exact wkStep_inv_exiting c s k h hw

theorem finCountF_none (N : Nat) (f : Nat → Bool) (h : ∀ i, i < N → f i = false) :
    finCountF N f = 0 := by
  unfold finCountF
  rw [Finset.card_eq_zero, Finset.filter_eq_empty_iff]
  intro i hi
  rw [h i (Finset.mem_range.mp hi)]
  simp

theorem WOkA_tp_succ (w : WPC) (st : TState) (r f : Bool) (tp i : Nat)
    (hik : i ≠ tp) (h : WOkA w st r f tp i) : WOkA w st r f (tp + 1) i := by
  cases w <;> simp only [WOkA] at h ⊢
  case unborn =>
    obtain ⟨h1, h2⟩ := h
    exact ⟨by omega, h2⟩
  all_goals exact h

theorem WOkA_tp_pred (w : WPC) (st : TState) (r f : Bool) (tp tp' i : Nat)
    (hle : tp' ≤ tp) (h : WOkA w st r f tp i) : WOkA w st r f tp' i := by
  cases w <;> simp only [WOkA] at h ⊢
  case unborn =>
    obtain ⟨h1, h2⟩ := h
    exact ⟨by omega, h2⟩
  all_goals exact h

/-- A slot observed `Idle` has its worker parked in the wait path, with the
ghost flags in agreement. -/
theorem parked_of_idle (c : Cfg) (s : St) (i : Nat) (h : Inv c s)
    (hst : (s.slots i).state = .idle) :
    (s.wpc i = .toWait ∨ s.wpc i = .sleeping) ∧ s.ranJob i = s.finished i := by
  have hwk := h.wok i
  unfold WOk at hwk
  cases hc : s.wpc i <;> rw [hc] at hwk <;> simp only [WOkA] at hwk
  case unborn =>
    rw [hst] at hwk
    simp at hwk
  case atTop =>
    rcases hwk with ⟨hx, _, _⟩ | ⟨hx, _, _⟩ <;> rw [hst] at hx <;> simp at hx
  case toWait =>
    refine ⟨Or.inl rfl, ?_⟩
    rcases hwk with ⟨_, hx⟩ | ⟨hx, _, _⟩ | ⟨hx, _, _⟩
    · exact hx
    · rw [hst] at hx
      simp at hx
    · rw [hst] at hx
      simp at hx
  case sleeping =>
    refine ⟨Or.inr rfl, ?_⟩
    rcases hwk with ⟨_, hx⟩ | ⟨hx, _, _⟩ | ⟨hx, _, _⟩
    · exact hx
    · rw [hst] at hx
      simp at hx
    · rw [hst] at hx
      simp at hx
  case woken =>
    rcases hwk with ⟨hx, _, _⟩ | ⟨hx, _, _⟩ <;> rw [hst] at hx <;> simp at hx
  case afterJob =>
    obtain ⟨hx, _, _⟩ := hwk
    rw [hst] at hx
    simp at hx
  case exiting =>
    obtain ⟨hx, _, _⟩ := hwk
    rw [hst] at hx
    simp at hx
  case halted =>
    obtain ⟨hx, _, _⟩ := hwk
    rw [hst] at hx
    simp at hx

/-- A slot observed `Dead` has its worker returned from `exec`. -/
theorem halted_of_dead (c : Cfg) (s : St) (i : Nat) (h : Inv c s)
    (hst : (s.slots i).state = .dead) : s.wpc i = .halted := by
  have hwk := h.wok i
  unfold WOk at hwk
  cases hc : s.wpc i <;> rw [hc] at hwk <;> simp only [WOkA] at hwk
  case unborn =>
    rw [hst] at hwk
    simp at hwk
  case atTop =>
    rcases hwk with ⟨hx, _, _⟩ | ⟨hx, _, _⟩ <;> rw [hst] at hx <;> simp at hx
  case toWait =>
    rcases hwk with ⟨hx, _⟩ | ⟨hx, _, _⟩ | ⟨hx, _, _⟩ <;> rw [hst] at hx <;>
      simp at hx
  case sleeping =>
    rcases hwk with ⟨hx, _⟩ | ⟨hx, _, _⟩ | ⟨hx, _, _⟩ <;> rw [hst] at hx <;>
      simp at hx
  case woken =>
    rcases hwk with ⟨hx, _, _⟩ | ⟨hx, _, _⟩ <;> rw [hst] at hx <;> simp at hx
  case afterJob =>
    obtain ⟨hx, _, _⟩ := hwk
    rw [hst] at hx
    simp at hx
  case exiting =>
    obtain ⟨hx, _, _⟩ := hwk
    rw [hst] at hx
    simp at hx

theorem bossStep_inv_start (c : Cfg) (hN : 2 ≤ c.N) (s : St) (h : Inv c s)
    (hb : s.bpc = .start) : Inv c (bossStep c s) := by
  have e : bossStep c s = { s with bpc := .spawning } := by
    unfold bossStep
    rw [hb]
    rw [if_neg (by omega)]
  rw [e]
  have htp0 : s.tp = 0 := h.startCl hb
  refine
    { wok := h.wok, l1 := h.l1, l2 := h.l2, unb := h.unb, tpLe := h.tpLe,
      sig := h.sig, predisp := ?_, disp := ?_, cnt := ?_, fSpawn := ?_,
      fPost := ?_, tpPost := ?_, spawnCl := ?_, hsSetCl := ?_, hsPollCl := ?_,
      hsGoCl := ?_, hsSigCl := ?_, pollCl := ?_, rdIdle := ?_, allFin := ?_,
      kOrd := ?_, kDead := ?_, kIdle := ?_, startCl := ?_ }
  · intro i _
    exact h.predisp i (by rw [hb]; exact Nat.zero_le i)
  · intro i hi
    dsimp only at hi
    simp [dspCount] at hi
  · have hc2 := h.cnt
    rw [hb] at hc2
    simpa [counterSet] using hc2
  · intro _ i hi
    rw [htp0] at hi
    omega
  · intro hcs2
    simp [counterSet] at hcs2
  · intro hcs2
    simp [counterSet] at hcs2
  · intro _ i hi
    exact h.spawnCl (Or.inl hb) i hi
  · intro i hbb
    simp at hbb
  · intro i hbb
    simp at hbb
  · intro i hbb
    simp at hbb
  · intro i hbb
    simp at hbb
  · intro j hbb
    simp at hbb
  · intro hbb
    simp at hbb
  · intro hbb
    rcases hbb with hbb | hbb
    · simp at hbb
    · simp [isKill] at hbb
  · refine ⟨fun hk => by simp [isKill] at hk, fun _ => ?_⟩
    exact h.kOrd.2 (by rw [hb]; rfl)
  · intro hk
    simp [isKill] at hk
  · exact trivial
  · intro hbb
    simp at hbb

theorem bossStep_inv_spawn (c : Cfg) (_hN : 2 ≤ c.N) (s : St) (h : Inv c s)
    (hb : s.bpc = .spawning) (hlt : s.tp < c.N) : Inv c (bossStep c s) := by
  have e : bossStep c s
      = { s with
          slots := fun j =>
            if j = s.tp then
              { index := s.tp, numThreads := s.tp + 1, state := .init, alg := false }
            else if j < s.tp then { s.slots j with numThreads := s.tp + 1 }
            else s.slots j
          wpc := Function.update s.wpc s.tp .atTop
          tp := s.tp + 1
          bpc := .spawning } := by
    unfold bossStep
    rw [hb]
    rw [if_pos hlt]
  rw [e]
  have hghost := h.predisp s.tp (by rw [hb]; exact Nat.zero_le s.tp)
  have hstate : ∀ i, i ≠ s.tp →
      ((if i = s.tp then
          ({ index := s.tp, numThreads := s.tp + 1, state := .init,
             alg := false } : DSlot)
        else if i < s.tp then { s.slots i with numThreads := s.tp + 1 }
        else s.slots i)).state = (s.slots i).state := by
    intro i hik
    rw [if_neg hik]
    by_cases hl2 : i < s.tp
    · rw [if_pos hl2]
    · rw [if_neg hl2]
  refine
    { l1 := h.l1, l2 := h.l2, sig := h.sig, wok := ?_, unb := ?_, tpLe := ?_,
      predisp := ?_, disp := ?_, cnt := ?_, fSpawn := ?_, fPost := ?_,
      tpPost := ?_, spawnCl := ?_, hsSetCl := ?_, hsPollCl := ?_,
      hsGoCl := ?_, hsSigCl := ?_, pollCl := ?_, rdIdle := ?_, allFin := ?_,
      kOrd := ?_, kDead := ?_, kIdle := ?_, startCl := ?_ }
  · -- wok
    intro i
    unfold WOk
    dsimp only
    by_cases hik : i = s.tp
    · rw [hik, Function.update_same, if_pos rfl]
      simp only [WOkA]
      exact Or.inl ⟨trivial, hghost.2.2.1, hghost.2.2.2⟩
    · rw [Function.update_noteq hik, hstate i hik]
      exact WOkA_tp_succ _ _ _ _ _ _ hik (h.wok i)
  · -- unb
    intro i hi
    dsimp only
    rw [Function.update_noteq (by omega)]
    exact h.unb i hi
  · -- tpLe
    dsimp only
    omega
  · -- predisp
    intro i _
    unfold PreW
    dsimp only
    by_cases hik : i = s.tp
    · rw [hik, Function.update_same, if_pos rfl]
      exact ⟨by simp, Or.inl rfl, hghost.2.2.1, hghost.2.2.2⟩
    · rw [Function.update_noteq hik, hstate i hik]
      exact h.predisp i (by rw [hb]; exact Nat.zero_le i)
  · -- disp
    intro i hi
    dsimp only at hi
    simp [dspCount] at hi
  · -- cnt
    have hc2 := h.cnt
    rw [hb] at hc2
    simpa [counterSet] using hc2
  · -- fSpawn
    intro _ i hi
    dsimp only at hi ⊢
    by_cases hik : i = s.tp
    · rw [hik, if_pos rfl]
      exact ⟨rfl, rfl, rfl⟩
    · rw [if_neg hik]
      have hl2 : i < s.tp := by omega
      rw [if_pos hl2]
      have := h.fSpawn hb i hl2
      exact ⟨this.1, rfl, this.2.2⟩
  · -- fPost
    intro hcs2
    simp [counterSet] at hcs2
  · -- tpPost
    intro hcs2
    simp [counterSet] at hcs2
  · -- spawnCl
    intro _ i hi
    dsimp only at hi ⊢
    rw [Function.update_noteq (by omega)]
    exact h.spawnCl (Or.inr hb) i (by omega)
  · intro i hbb
    simp at hbb
  · intro i hbb
    simp at hbb
  · intro i hbb
    simp at hbb
  · intro i hbb
    simp at hbb
  · intro j hbb
    simp at hbb
  · intro hbb
    simp at hbb
  · intro hbb
    rcases hbb with hbb | hbb
    · simp at hbb
    · simp [isKill] at hbb
  · refine ⟨fun hk => by simp [isKill] at hk, fun _ => ?_⟩
    exact h.kOrd.2 (by rw [hb]; rfl)
  · intro hk
    simp [isKill] at hk
  · exact trivial
  · intro hbb
    simp at hbb

theorem bossStep_inv_spawnDone (c : Cfg) (hN : 2 ≤ c.N) (s : St) (h : Inv c s)
    (hb : s.bpc = .spawning) (hge : ¬ s.tp < c.N) : Inv c (bossStep c s) := by
  have e : bossStep c s = { s with counter := (c.N : Int), bpc := .hsSet 0 } := by
    unfold bossStep
    rw [hb]
    rw [if_neg hge]
  rw [e]
  have htpN : s.tp = c.N := by
    have := h.tpLe
    omega
  have hfin0 : ∀ i, i < c.N → s.finished i = false := by
    intro i _
    exact (h.predisp i (by rw [hb]; exact Nat.zero_le i)).2.2.2
  have hfc0 : finCount c s = 0 := finCountF_none c.N s.finished hfin0
  refine
    { wok := h.wok, l1 := h.l1, l2 := h.l2, unb := h.unb, tpLe := h.tpLe,
      sig := h.sig, predisp := ?_, disp := ?_, cnt := ?_, fSpawn := ?_,
      fPost := ?_, tpPost := ?_, spawnCl := ?_, hsSetCl := ?_, hsPollCl := ?_,
      hsGoCl := ?_, hsSigCl := ?_, pollCl := ?_, rdIdle := ?_, allFin := ?_,
      kOrd := ?_, kDead := ?_, kIdle := ?_, startCl := ?_ }
  · intro i _
    exact h.predisp i (by rw [hb]; exact Nat.zero_le i)
  · intro i hi
    dsimp only at hi
    simp [dspCount] at hi
  · dsimp only
    show (c.N : Int) = _
    rw [if_pos (show counterSet (BPC.hsSet 0) = true from rfl)]
    unfold finCount at hfc0
    show (c.N : Int) = (c.N : Int) - (finCountF c.N s.finished : Int)
    rw [hfc0]
    simp
  · intro hbb
    simp at hbb
  · -- fPost
    intro _ i hi
    dsimp only
    have := h.fSpawn hb i (by omega)
    rw [htpN] at this
    refine ⟨this.1, this.2.1, ?_⟩
    rw [this.2.2]
    simp [fsCount]
  · intro _ _
    dsimp only
    exact htpN
  · intro hbb
    rcases hbb with hbb | hbb <;> simp at hbb
  · intro i hbb
    dsimp only at hbb
    cases hbb
    omega
  · intro i hbb
    simp at hbb
  · intro i hbb
    simp at hbb
  · intro i hbb
    simp at hbb
  · intro j hbb
    simp at hbb
  · intro hbb
    simp at hbb
  · intro hbb
    rcases hbb with hbb | hbb
    · simp at hbb
    · simp [isKill] at hbb
  · refine ⟨fun hk => by simp [isKill] at hk, fun _ => ?_⟩
    exact h.kOrd.2 (by rw [hb]; rfl)
  · intro hk
    simp [isKill] at hk
  · exact trivial
  · intro hbb
    simp at hbb

theorem bossStep_inv_hsSet (c : Cfg) (s : St) (h : Inv c s) (i0 : Nat)
    (hb : s.bpc = .hsSet i0) : Inv c (bossStep c s) := by
  have hi0 : i0 < c.N := h.hsSetCl i0 hb
  have e : bossStep c s
      = { s with
          slots := fun j =>
            if j = i0 then
              { s.slots i0 with index := i0, numThreads := c.N, alg := c.hasJob }
            else s.slots j
          bpc := .hsPoll i0 } := by
    unfold bossStep
    rw [hb]
  rw [e]
  have hstate : ∀ j,
      ((if j = i0 then
          { s.slots i0 with index := i0, numThreads := c.N, alg := c.hasJob }
        else s.slots j)).state = (s.slots j).state := by
    intro j
    by_cases hj : j = i0
    · rw [if_pos hj, hj]
    · rw [if_neg hj]
  refine
    { l1 := h.l1, l2 := h.l2, unb := h.unb, tpLe := h.tpLe, sig := h.sig,
      wok := ?_, predisp := ?_, disp := ?_, cnt := ?_, fSpawn := ?_,
      fPost := ?_, tpPost := ?_, spawnCl := ?_, hsSetCl := ?_, hsPollCl := ?_,
      hsGoCl := ?_, hsSigCl := ?_, pollCl := ?_, rdIdle := ?_, allFin := ?_,
      kOrd := ?_, kDead := ?_, kIdle := ?_, startCl := ?_ }
  · -- wok
    intro i
    unfold WOk
    dsimp only
    rw [hstate i]
    exact h.wok i
  · -- predisp
    intro i hi
    dsimp only at hi
    have hp := h.predisp i (by rw [hb]; exact hi)
    unfold PreW at hp ⊢
    dsimp only
    rw [hstate i]
    exact hp
  · -- disp
    intro i hi hf
    dsimp only at hi hf ⊢
    rw [hstate i]
    exact h.disp i (by rw [hb]; exact hi) hf
  · -- cnt
    have hc2 := h.cnt
    rw [hb] at hc2
    dsimp only
    simpa [counterSet] using hc2
  · intro hbb
    simp at hbb
  · -- fPost
    intro _ j hj
    dsimp only at hj ⊢
    have hold := h.fPost (by rw [hb]; rfl) j hj
    rw [hb] at hold
    by_cases hji : j = i0
    · rw [if_pos hji, hji]
      refine ⟨rfl, rfl, ?_⟩
      simp [fsCount]
    · rw [if_neg hji]
      refine ⟨hold.1, hold.2.1, ?_⟩
      rw [hold.2.2]
      congr 1
      simp only [fsCount]
      rw [decide_eq_decide]
      omega
  · intro _ _
    exact h.tpPost (by rw [hb]; rfl) (by rw [hb]; rfl)
  · intro hbb
    rcases hbb with hbb | hbb <;> simp at hbb
  · intro i hbb
    simp at hbb
  · intro i hbb
    cases hbb
    exact hi0
  · intro i hbb
    simp at hbb
  · intro i hbb
    simp at hbb
  · intro j hbb
    simp at hbb
  · intro hbb
    simp at hbb
  · intro hbb
    rcases hbb with hbb | hbb
    · simp at hbb
    · simp [isKill] at hbb
  · refine ⟨fun hk => by simp [isKill] at hk, fun _ => ?_⟩
    exact h.kOrd.2 (by rw [hb]; rfl)
  · intro hk
    simp [isKill] at hk
  · exact trivial
  · intro hbb
    simp at hbb

theorem bossStep_inv_hsPoll (c : Cfg) (s : St) (h : Inv c s) (i0 : Nat)
    (hb : s.bpc = .hsPoll i0) : Inv c (bossStep c s) := by
  have hi0 : i0 < c.N := h.hsPollCl i0 hb
  by_cases hidle : (s.slots i0).state = .idle
  · have e : bossStep c s = { s with bpc := .hsGo i0 } := by
      unfold bossStep
      rw [hb]
      dsimp only
      rw [if_pos hidle]
    rw [e]
    refine
      { l1 := h.l1, l2 := h.l2, unb := h.unb, tpLe := h.tpLe, sig := h.sig,
        wok := h.wok, predisp := ?_, disp := ?_, cnt := ?_, fSpawn := ?_,
        fPost := ?_, tpPost := ?_, spawnCl := ?_, hsSetCl := ?_,
        hsPollCl := ?_, hsGoCl := ?_, hsSigCl := ?_, pollCl := ?_,
        rdIdle := ?_, allFin := ?_, kOrd := ?_, kDead := ?_, kIdle := ?_,
        startCl := ?_ }
    · intro i hi
      dsimp only at hi
      exact h.predisp i (by rw [hb]; exact hi)
    · intro i hi hf
      dsimp only at hi hf ⊢
      exact h.disp i (by rw [hb]; exact hi) hf
    · have hc2 := h.cnt
      rw [hb] at hc2
      dsimp only
      simpa [counterSet] using hc2
    · intro hbb
      simp at hbb
    · intro _ j hj
      dsimp only at hj ⊢
      have hold := h.fPost (by rw [hb]; rfl) j hj
      rw [hb] at hold
      exact hold
    · intro _ _
      exact h.tpPost (by rw [hb]; rfl) (by rw [hb]; rfl)
    · intro hbb
      rcases hbb with hbb | hbb <;> simp at hbb
    · intro i hbb
      simp at hbb
    · intro i hbb
      simp at hbb
    · intro i hbb
      cases hbb
      exact ⟨hi0, hidle⟩
    · intro i hbb
      simp at hbb
    · intro j hbb
      simp at hbb
    · intro hbb
      simp at hbb
    · intro hbb
      rcases hbb with hbb | hbb
      · simp at hbb
      · simp [isKill] at hbb
    · refine ⟨fun hk => by simp [isKill] at hk, fun _ => ?_⟩
      exact h.kOrd.2 (by rw [hb]; rfl)
    · intro hk
      simp [isKill] at hk
    · exact trivial
    · intro hbb
      simp at hbb
  · have e : bossStep c s = s := by
      unfold bossStep
      rw [hb]
      dsimp only
      rw [if_neg hidle]
    rw [e]
    exact h

theorem bossStep_inv_hsGo (c : Cfg) (s : St) (h : Inv c s) (i0 : Nat)
    (hb : s.bpc = .hsGo i0) : Inv c (bossStep c s) := by
  obtain ⟨hi0, hidle⟩ := h.hsGoCl i0 hb
  have hpk := parked_of_idle c s i0 h hidle
  have hgh := h.predisp i0 (by rw [hb]; exact Nat.le_refl i0)
  have e : bossStep c s
      = { s with slots := updState s.slots i0 .running, bpc := .hsSignal i0 } := by
    unfold bossStep
    rw [hb]
  rw [e]
  refine
    { l1 := h.l1, l2 := h.l2, unb := h.unb, tpLe := h.tpLe, sig := h.sig,
      wok := ?_, predisp := ?_, disp := ?_, cnt := ?_, fSpawn := ?_,
      fPost := ?_, tpPost := ?_, spawnCl := ?_, hsSetCl := ?_, hsPollCl := ?_,
      hsGoCl := ?_, hsSigCl := ?_, pollCl := ?_, rdIdle := ?_, allFin := ?_,
      kOrd := ?_, kDead := ?_, kIdle := ?_, startCl := ?_ }
  · -- wok
    intro i
    unfold WOk
    dsimp only
    by_cases hik : i = i0
    · rw [hik, updState_state, if_pos rfl]
      rcases hpk.1 with hpw | hpw <;> rw [hpw] <;> simp only [WOkA] <;>
        exact Or.inr (Or.inl ⟨trivial, hgh.2.2.1, hgh.2.2.2⟩)
    · rw [updState_state, if_neg hik]
      exact h.wok i
  · -- predisp
    intro i hi
    dsimp only at hi
    have hik : i ≠ i0 := by
      intro he
      rw [he] at hi
      simp [dspCount] at hi
    have hp := h.predisp i (by rw [hb]; show i0 ≤ i; simp [dspCount] at hi; omega)
    unfold PreW at hp ⊢
    dsimp only
    rw [updState_state, if_neg hik]
    exact hp
  · -- disp
    intro i hi hf
    dsimp only at hi hf ⊢
    rw [updState_state]
    by_cases hik : i = i0
    · rw [if_pos hik]
    · rw [if_neg hik]
      have hi2 : i < i0 := by
        simp [dspCount] at hi
        omega
      exact h.disp i (by rw [hb]; exact hi2) hf
  · -- cnt
    have hc2 := h.cnt
    rw [hb] at hc2
    dsimp only
    simpa [counterSet] using hc2
  · intro hbb
    simp at hbb
  · -- fPost
    intro _ j hj
    dsimp only at hj ⊢
    have hold := h.fPost (by rw [hb]; rfl) j hj
    rw [hb] at hold
    rw [updState_index, updState_numThreads, updState_alg]
    exact hold
  · intro _ _
    exact h.tpPost (by rw [hb]; rfl) (by rw [hb]; rfl)
  · intro hbb
    rcases hbb with hbb | hbb <;> simp at hbb
  · intro i hbb
    simp at hbb
  · intro i hbb
    simp at hbb
  · intro i hbb
    simp at hbb
  · -- hsSigCl
    intro i hbb
    cases hbb
    refine ⟨hi0, ?_, hgh.2.2.1, hgh.2.2.2, hpk.1⟩
    rw [updState_state, if_pos rfl]
  · intro j hbb
    simp at hbb
  · intro hbb
    simp at hbb
  · intro hbb
    rcases hbb with hbb | hbb
    · simp at hbb
    · simp [isKill] at hbb
  · refine ⟨fun hk => by simp [isKill] at hk, fun _ => ?_⟩
    exact h.kOrd.2 (by rw [hb]; rfl)
  · intro hk
    simp [isKill] at hk
  · exact trivial
  · intro hbb
    simp at hbb

theorem bossStep_inv_hsSignal (c : Cfg) (s : St) (h : Inv c s) (i0 : Nat)
    (hb : s.bpc = .hsSignal i0) : Inv c (bossStep c s) := by
  obtain ⟨hi0, hrun, hrj, hfin, hpw⟩ := h.hsSigCl i0 hb
  have e : bossStep c s
      = { s with
          wpc := if s.wpc i0 = .sleeping then Function.update s.wpc i0 .woken
            else s.wpc
          bpc := if i0 + 1 < c.N then .hsSet (i0 + 1) else .toWaitB } := by
    unfold bossStep wake
    rw [hb]
    dsimp only
    by_cases hsl : s.wpc i0 = .sleeping
    · rw [if_pos hsl]
      rw [if_pos hsl]
    · rw [if_neg hsl]
      rw [if_neg hsl]
  rw [e]
  have hd' : dspCount c.N (if i0 + 1 < c.N then BPC.hsSet (i0 + 1)
      else BPC.toWaitB) = i0 + 1 := by
    by_cases hnext : i0 + 1 < c.N
    · rw [if_pos hnext]
      rfl
    · rw [if_neg hnext]
      simp [dspCount]
      omega
  have hf' : fsCount c.N (if i0 + 1 < c.N then BPC.hsSet (i0 + 1)
      else BPC.toWaitB) = i0 + 1 := by
    by_cases hnext : i0 + 1 < c.N
    · rw [if_pos hnext]
      rfl
    · rw [if_neg hnext]
      simp [fsCount]
      omega
  have hcs' : counterSet (if i0 + 1 < c.N then BPC.hsSet (i0 + 1)
      else BPC.toWaitB) = true := by
    by_cases hnext : i0 + 1 < c.N
    · rw [if_pos hnext]
      rfl
    · rw [if_neg hnext]
      rfl
  have hik' : isKill (if i0 + 1 < c.N then BPC.hsSet (i0 + 1)
      else BPC.toWaitB) = false := by
    by_cases hnext : i0 + 1 < c.N
    · rw [if_pos hnext]
      rfl
    · rw [if_neg hnext]
      rfl
  have hwp : ∀ i, i ≠ i0 →
      (if s.wpc i0 = .sleeping then Function.update s.wpc i0 .woken
        else s.wpc) i = s.wpc i := by
    intro i hik
    by_cases hsl : s.wpc i0 = .sleeping
    · rw [if_pos hsl, Function.update_noteq hik]
    · rw [if_neg hsl]
  refine
    { l1 := h.l1, l2 := h.l2, tpLe := h.tpLe, sig := h.sig, wok := ?_,
      unb := ?_, predisp := ?_, disp := ?_, cnt := ?_, fSpawn := ?_,
      fPost := ?_, tpPost := ?_, spawnCl := ?_, hsSetCl := ?_, hsPollCl := ?_,
      hsGoCl := ?_, hsSigCl := ?_, pollCl := ?_, rdIdle := ?_, allFin := ?_,
      kOrd := ?_, kDead := ?_, kIdle := ?_, startCl := ?_ }
  · -- wok
    intro i
    unfold WOk
    dsimp only
    by_cases hik : i = i0
    · rw [hik]
      by_cases hsl : s.wpc i0 = .sleeping
      · rw [if_pos hsl, Function.update_same]
        simp only [WOkA]
        exact Or.inl ⟨hrun, hrj, hfin⟩
      · rw [if_neg hsl]
        exact h.wok i0
    · rw [hwp i hik]
      exact h.wok i
  · -- unb
    intro i hi
    dsimp only
    rw [hwp i (by omega)]
    exact h.unb i hi
  · -- predisp
    intro i hi
    dsimp only at hi
    rw [hd'] at hi
    have hp := h.predisp i (by rw [hb]; exact hi)
    unfold PreW at hp ⊢
    dsimp only
    rw [hwp i (by omega)]
    exact hp
  · -- disp
    intro i hi hf2
    dsimp only at hi hf2 ⊢
    rw [hd'] at hi
    exact h.disp i (by rw [hb]; exact hi) hf2
  · -- cnt
    have hc2 := h.cnt
    rw [hb] at hc2
    dsimp only
    rw [hcs']
    simpa [counterSet] using hc2
  · -- fSpawn
    intro hbb
    dsimp only at hbb
    by_cases hnext : i0 + 1 < c.N
    · rw [if_pos hnext] at hbb
      simp at hbb
    · rw [if_neg hnext] at hbb
      simp at hbb
  · -- fPost
    intro _ j hj
    dsimp only at hj ⊢
    have hold := h.fPost (by rw [hb]; rfl) j hj
    rw [hb] at hold
    rw [hf']
    exact hold
  · -- tpPost
    intro _ _
    exact h.tpPost (by rw [hb]; rfl) (by rw [hb]; rfl)
  · -- spawnCl
    intro hbb
    dsimp only at hbb
    by_cases hnext : i0 + 1 < c.N
    · rw [if_pos hnext] at hbb
      rcases hbb with hbb | hbb <;> simp at hbb
    · rw [if_neg hnext] at hbb
      rcases hbb with hbb | hbb <;> simp at hbb
  · -- hsSetCl
    intro i hbb
    dsimp only at hbb
    by_cases hnext : i0 + 1 < c.N
    · rw [if_pos hnext] at hbb
      cases hbb
      exact hnext
    · rw [if_neg hnext] at hbb
      simp at hbb
  · -- hsPollCl
    intro i hbb
    dsimp only at hbb
    by_cases hnext : i0 + 1 < c.N
    · rw [if_pos hnext] at hbb
      simp at hbb
    · rw [if_neg hnext] at hbb
      simp at hbb
  · -- hsGoCl
    intro i hbb
    dsimp only at hbb
    by_cases hnext : i0 + 1 < c.N
    · rw [if_pos hnext] at hbb
      simp at hbb
    · rw [if_neg hnext] at hbb
      simp at hbb
  · -- hsSigCl
    intro i hbb
    dsimp only at hbb
    by_cases hnext : i0 + 1 < c.N
    · rw [if_pos hnext] at hbb
      simp at hbb
    · rw [if_neg hnext] at hbb
      simp at hbb
  · -- pollCl
    intro j hbb
    dsimp only at hbb
    by_cases hnext : i0 + 1 < c.N
    · rw [if_pos hnext] at hbb
      simp at hbb
    · rw [if_neg hnext] at hbb
      simp at hbb
  · -- rdIdle
    intro hbb
    dsimp only at hbb
    by_cases hnext : i0 + 1 < c.N
    · rw [if_pos hnext] at hbb
      simp at hbb
    · rw [if_neg hnext] at hbb
      simp at hbb
  · -- allFin
    intro hbb
    dsimp only at hbb
    rcases hbb with hbb | hbb
    · by_cases hnext : i0 + 1 < c.N
      · rw [if_pos hnext] at hbb
        simp at hbb
      · rw [if_neg hnext] at hbb
        simp at hbb
    · rw [hik'] at hbb
      simp at hbb
  · -- kOrd
    dsimp only
    rw [hik']
    refine ⟨fun hk => by simp at hk, fun _ => ?_⟩
    exact h.kOrd.2 (by rw [hb]; rfl)
  · -- kDead
    intro hbb
    dsimp only at hbb
    rw [hik'] at hbb
    simp at hbb
  · -- kIdle
    unfold KillCl
    dsimp only
    by_cases hnext : i0 + 1 < c.N
    · rw [if_pos hnext]
      exact trivial
    · rw [if_neg hnext]
      exact trivial
  · -- startCl
    intro hbb
    dsimp only at hbb
    by_cases hnext : i0 + 1 < c.N
    · rw [if_pos hnext] at hbb
      simp at hbb
    · rw [if_neg hnext] at hbb
      simp at hbb

theorem bossStep_inv_toWaitB (c : Cfg) (s : St) (h : Inv c s)
    (hb : s.bpc = .toWaitB) : Inv c (bossStep c s) := by
  have e : bossStep c s = { s with bpc := .sleepingB } := by
    unfold bossStep
    rw [hb]
  rw [e]
  refine
    { l1 := h.l1, l2 := h.l2, unb := h.unb, tpLe := h.tpLe, sig := h.sig,
      wok := h.wok, predisp := ?_, disp := ?_, cnt := ?_, fSpawn := ?_,
      fPost := ?_, tpPost := ?_, spawnCl := ?_, hsSetCl := ?_, hsPollCl := ?_,
      hsGoCl := ?_, hsSigCl := ?_, pollCl := ?_, rdIdle := ?_, allFin := ?_,
      kOrd := ?_, kDead := ?_, kIdle := ?_, startCl := ?_ }
  · intro i hi
    dsimp only at hi
    exact h.predisp i (by rw [hb]; exact hi)
  · intro i hi hf
    dsimp only at hi hf ⊢
    exact h.disp i (by rw [hb]; exact hi) hf
  · have hc2 := h.cnt
    rw [hb] at hc2
    dsimp only
    simpa [counterSet] using hc2
  · intro hbb
    simp at hbb
  · intro _ j hj
    dsimp only at hj ⊢
    have hold := h.fPost (by rw [hb]; rfl) j hj
    rw [hb] at hold
    exact hold
  · intro _ _
    exact h.tpPost (by rw [hb]; rfl) (by rw [hb]; rfl)
  · intro hbb
    rcases hbb with hbb | hbb <;> simp at hbb
  · intro i hbb
    simp at hbb
  · intro i hbb
    simp at hbb
  · intro i hbb
    simp at hbb
  · intro i hbb
    simp at hbb
  · intro j hbb
    simp at hbb
  · intro hbb
    simp at hbb
  · intro hbb
    rcases hbb with hbb | hbb
    · simp at hbb
    · simp [isKill] at hbb
  · refine ⟨fun hk => by simp [isKill] at hk, fun _ => ?_⟩
    exact h.kOrd.2 (by rw [hb]; rfl)
  · intro hk
    simp [isKill] at hk
  · exact trivial
  · intro hbb
    simp at hbb

theorem bossStep_inv_sleepingB (c : Cfg) (s : St) (h : Inv c s)
    (hb : s.bpc = .sleepingB) : Inv c (bossStep c s) := by
  have e : bossStep c s = s := by
    unfold bossStep
    rw [hb]
  rw [e]
  exact h

theorem bossStep_inv_poll (c : Cfg) (s : St) (h : Inv c s) (j0 : Nat)
    (hb : s.bpc = .poll j0) : Inv c (bossStep c s) := by
  obtain ⟨hjN, hidles⟩ := h.pollCl j0 hb
  by_cases hlt : j0 < c.N
  · by_cases hidle : (s.slots j0).state = .idle
    · have e : bossStep c s = { s with bpc := .poll (j0 + 1) } := by
        unfold bossStep
        rw [hb]
        dsimp only
        rw [if_pos hlt, if_pos hidle]
      rw [e]
      refine
        { l1 := h.l1, l2 := h.l2, unb := h.unb, tpLe := h.tpLe, sig := h.sig,
          wok := h.wok, predisp := ?_, disp := ?_, cnt := ?_, fSpawn := ?_,
          fPost := ?_, tpPost := ?_, spawnCl := ?_, hsSetCl := ?_,
          hsPollCl := ?_, hsGoCl := ?_, hsSigCl := ?_, pollCl := ?_,
          rdIdle := ?_, allFin := ?_, kOrd := ?_, kDead := ?_, kIdle := ?_,
          startCl := ?_ }
      · intro i hi
        dsimp only at hi
        exact h.predisp i (by rw [hb]; exact hi)
      · intro i hi hf
        dsimp only at hi hf ⊢
        exact h.disp i (by rw [hb]; exact hi) hf
      · have hc2 := h.cnt
        rw [hb] at hc2
        dsimp only
        simpa [counterSet] using hc2
      · intro hbb
        simp at hbb
      · intro _ j hj
        dsimp only at hj ⊢
        have hold := h.fPost (by rw [hb]; rfl) j hj
        rw [hb] at hold
        exact hold
      · intro _ _
        exact h.tpPost (by rw [hb]; rfl) (by rw [hb]; rfl)
      · intro hbb
        rcases hbb with hbb | hbb <;> simp at hbb
      · intro i hbb
        simp at hbb
      · intro i hbb
        simp at hbb
      · intro i hbb
        simp at hbb
      · intro i hbb
        simp at hbb
      · -- pollCl
        intro j hbb
        cases hbb
        refine ⟨by omega, fun i hi => ?_⟩
        by_cases hij : i = j0
        · rw [hij]
          exact hidle
        · exact hidles i (by omega)
      · intro hbb
        simp at hbb
      · intro hbb
        rcases hbb with hbb | hbb
        · simp at hbb
        · simp [isKill] at hbb
      · refine ⟨fun hk => by simp [isKill] at hk, fun _ => ?_⟩
        exact h.kOrd.2 (by rw [hb]; rfl)
      · intro hk
        simp [isKill] at hk
      · exact trivial
      · intro hbb
        simp at hbb
    · have e : bossStep c s = { s with bpc := .poll 0 } := by
        unfold bossStep
        rw [hb]
        dsimp only
        rw [if_pos hlt, if_neg hidle]
      rw [e]
      refine
        { l1 := h.l1, l2 := h.l2, unb := h.unb, tpLe := h.tpLe, sig := h.sig,
          wok := h.wok, predisp := ?_, disp := ?_, cnt := ?_, fSpawn := ?_,
          fPost := ?_, tpPost := ?_, spawnCl := ?_, hsSetCl := ?_,
          hsPollCl := ?_, hsGoCl := ?_, hsSigCl := ?_, pollCl := ?_,
          rdIdle := ?_, allFin := ?_, kOrd := ?_, kDead := ?_, kIdle := ?_,
          startCl := ?_ }
      · intro i hi
        dsimp only at hi
        exact h.predisp i (by rw [hb]; exact hi)
      · intro i hi hf
        dsimp only at hi hf ⊢
        exact h.disp i (by rw [hb]; exact hi) hf
      · have hc2 := h.cnt
        rw [hb] at hc2
        dsimp only
        simpa [counterSet] using hc2
      · intro hbb
        simp at hbb
      · intro _ j hj
        dsimp only at hj ⊢
        have hold := h.fPost (by rw [hb]; rfl) j hj
        rw [hb] at hold
        exact hold
      · intro _ _
        exact h.tpPost (by rw [hb]; rfl) (by rw [hb]; rfl)
      · intro hbb
        rcases hbb with hbb | hbb <;> simp at hbb
      · intro i hbb
        simp at hbb
      · intro i hbb
        simp at hbb
      · intro i hbb
        simp at hbb
      · intro i hbb
        simp at hbb
      · intro j hbb
        cases hbb
        exact ⟨by omega, fun i hi => by omega⟩
      · intro hbb
        simp at hbb
      · intro hbb
        rcases hbb with hbb | hbb
        · simp at hbb
        · simp [isKill] at hbb
      · refine ⟨fun hk => by simp [isKill] at hk, fun _ => ?_⟩
        exact h.kOrd.2 (by rw [hb]; rfl)
      · intro hk
        simp [isKill] at hk
      · exact trivial
      · intro hbb
        simp at hbb
  · have e : bossStep c s = { s with bpc := .runDone } := by
      unfold bossStep
      rw [hb]
      dsimp only
      rw [if_neg hlt]
    rw [e]
    have hjeq : j0 = c.N := by omega
    have hAllIdle : ∀ i, i < c.N → (s.slots i).state = .idle := by
      intro i hi
      exact hidles i (by omega)
    have hAllFin : ∀ i, i < c.N → s.finished i = true := by
      intro i hi
      by_cases hfi : s.finished i = true
      · exact hfi
      · have hd2 : i < dspCount c.N s.bpc := by
          rw [hb]
          exact hi
        have hrun := h.disp i hd2 (by simpa using hfi)
        rw [hAllIdle i hi] at hrun
        simp at hrun
    refine
      { l1 := h.l1, l2 := h.l2, unb := h.unb, tpLe := h.tpLe, sig := h.sig,
        wok := h.wok, predisp := ?_, disp := ?_, cnt := ?_, fSpawn := ?_,
        fPost := ?_, tpPost := ?_, spawnCl := ?_, hsSetCl := ?_,
        hsPollCl := ?_, hsGoCl := ?_, hsSigCl := ?_, pollCl := ?_,
        rdIdle := ?_, allFin := ?_, kOrd := ?_, kDead := ?_, kIdle := ?_,
        startCl := ?_ }
    · intro i hi
      dsimp only at hi
      exact h.predisp i (by rw [hb]; exact hi)
    · intro i hi hf
      dsimp only at hi hf ⊢
      exact h.disp i (by rw [hb]; exact hi) hf
    · have hc2 := h.cnt
      rw [hb] at hc2
      dsimp only
      simpa [counterSet] using hc2
    · intro hbb
      simp at hbb
    · intro _ j hj
      dsimp only at hj ⊢
      have hold := h.fPost (by rw [hb]; rfl) j hj
      rw [hb] at hold
      exact hold
    · intro _ _
      exact h.tpPost (by rw [hb]; rfl) (by rw [hb]; rfl)
    · intro hbb
      rcases hbb with hbb | hbb <;> simp at hbb
    · intro i hbb
      simp at hbb
    · intro i hbb
      simp at hbb
    · intro i hbb
      simp at hbb
    · intro i hbb
      simp at hbb
    · intro j hbb
      simp at hbb
    · intro _ i hi
      exact hAllIdle i hi
    · intro _ i hi
      exact hAllFin i hi
    · refine ⟨fun hk => by simp [isKill] at hk, fun _ => ?_⟩
      exact h.kOrd.2 (by rw [hb]; rfl)
    · intro hk
      simp [isKill] at hk
    · exact trivial
    · intro hbb
      simp at hbb

theorem bossStep_inv_runDone (c : Cfg) (s : St) (h : Inv c s)
    (hb : s.bpc = .runDone) : Inv c (bossStep c s) := by
  have e : bossStep c s = { s with bpc := .killCheck } := by
    unfold bossStep
    rw [hb]
  rw [e]
  have htpN : s.tp = c.N := h.tpPost (by rw [hb]; rfl) (by rw [hb]; rfl)
  refine
    { l1 := h.l1, l2 := h.l2, unb := h.unb, tpLe := h.tpLe, sig := h.sig,
      wok := h.wok, predisp := ?_, disp := ?_, cnt := ?_, fSpawn := ?_,
      fPost := ?_, tpPost := ?_, spawnCl := ?_, hsSetCl := ?_, hsPollCl := ?_,
      hsGoCl := ?_, hsSigCl := ?_, pollCl := ?_, rdIdle := ?_, allFin := ?_,
      kOrd := ?_, kDead := ?_, kIdle := ?_, startCl := ?_ }
  · intro i hi
    dsimp only at hi
    exact h.predisp i (by rw [hb]; exact hi)
  · intro i hi hf
    dsimp only at hi hf ⊢
    exact h.disp i (by rw [hb]; exact hi) hf
  · have hc2 := h.cnt
    rw [hb] at hc2
    dsimp only
    simpa [counterSet] using hc2
  · intro hbb
    simp at hbb
  · intro _ j hj
    dsimp only at hj ⊢
    have hold := h.fPost (by rw [hb]; rfl) j hj
    rw [hb] at hold
    exact hold
  · intro _ hk
    simp [isKill] at hk
  · intro hbb
    rcases hbb with hbb | hbb <;> simp at hbb
  · intro i hbb
    simp at hbb
  · intro i hbb
    simp at hbb
  · intro i hbb
    simp at hbb
  · intro i hbb
    simp at hbb
  · intro j hbb
    simp at hbb
  · intro hbb
    simp at hbb
  · intro _ i hi
    exact h.allFin (Or.inl hb) i hi
  · refine ⟨fun _ => ?_, fun hk => by simp [isKill] at hk⟩
    rw [h.kOrd.2 (by rw [hb]; rfl), htpN]
    simp
  · intro _ i hi hiN
    rw [htpN] at hi
    omega
  · -- kIdle
    unfold KillCl
    dsimp only
    intro i hi
    exact h.rdIdle hb i (by omega)
  · intro hbb
    simp at hbb

theorem bossStep_inv_killCheck (c : Cfg) (s : St) (h : Inv c s)
    (hb : s.bpc = .killCheck) : Inv c (bossStep c s) := by
  have hki := h.kIdle
  unfold KillCl at hki
  rw [hb] at hki
  by_cases hpos : 0 < s.tp
  · have e : bossStep c s = { s with bpc := .killPoll } := by
      unfold bossStep
      rw [hb]
      dsimp only
      rw [if_pos hpos]
    rw [e]
    refine
      { l1 := h.l1, l2 := h.l2, unb := h.unb, tpLe := h.tpLe, sig := h.sig,
        wok := h.wok, predisp := ?_, disp := ?_, cnt := ?_, fSpawn := ?_,
        fPost := ?_, tpPost := ?_, spawnCl := ?_, hsSetCl := ?_,
        hsPollCl := ?_, hsGoCl := ?_, hsSigCl := ?_, pollCl := ?_,
        rdIdle := ?_, allFin := ?_, kOrd := ?_, kDead := ?_, kIdle := ?_,
        startCl := ?_ }
    · intro i hi
      dsimp only at hi
      exact h.predisp i (by rw [hb]; exact hi)
    · intro i hi hf
      dsimp only at hi hf ⊢
      exact h.disp i (by rw [hb]; exact hi) hf
    · have hc2 := h.cnt
      rw [hb] at hc2
      dsimp only
      simpa [counterSet] using hc2
    · intro hbb
      simp at hbb
    · intro _ j hj
      dsimp only at hj ⊢
      have hold := h.fPost (by rw [hb]; rfl) j hj
      rw [hb] at hold
      exact hold
    · intro _ hk
      simp [isKill] at hk
    · intro hbb
      rcases hbb with hbb | hbb <;> simp at hbb
    · intro i hbb
      simp at hbb
    · intro i hbb
      simp at hbb
    · intro i hbb
      simp at hbb
    · intro i hbb
      simp at hbb
    · intro j hbb
      simp at hbb
    · intro hbb
      simp at hbb
    · intro _ i hi
      exact h.allFin (Or.inr (by rw [hb]; rfl)) i hi
    · refine ⟨fun _ => ?_, fun hk => by simp [isKill] at hk⟩
      exact h.kOrd.1 (by rw [hb]; rfl)
    · intro _ i hi hiN
      exact h.kDead (by rw [hb]; rfl) i hi hiN
    · exact ⟨hpos, hki⟩
    · intro hbb
      simp at hbb
  · have e : bossStep c s = { s with bpc := .killDone } := by
      unfold bossStep
      rw [hb]
      dsimp only
      rw [if_neg hpos]
    rw [e]
    refine
      { l1 := h.l1, l2 := h.l2, unb := h.unb, tpLe := h.tpLe, sig := h.sig,
        wok := h.wok, predisp := ?_, disp := ?_, cnt := ?_, fSpawn := ?_,
        fPost := ?_, tpPost := ?_, spawnCl := ?_, hsSetCl := ?_,
        hsPollCl := ?_, hsGoCl := ?_, hsSigCl := ?_, pollCl := ?_,
        rdIdle := ?_, allFin := ?_, kOrd := ?_, kDead := ?_, kIdle := ?_,
        startCl := ?_ }
    · intro i hi
      dsimp only at hi
      exact h.predisp i (by rw [hb]; exact hi)
    · intro i hi hf
      dsimp only at hi hf ⊢
      exact h.disp i (by rw [hb]; exact hi) hf
    · have hc2 := h.cnt
      rw [hb] at hc2
      dsimp only
      simpa [counterSet] using hc2
    · intro hbb
      simp at hbb
    · intro _ j hj
      dsimp only at hj ⊢
      have hold := h.fPost (by rw [hb]; rfl) j hj
      rw [hb] at hold
      exact hold
    · intro _ hk
      simp [isKill] at hk
    · intro hbb
      rcases hbb with hbb | hbb <;> simp at hbb
    · intro i hbb
      simp at hbb
    · intro i hbb
      simp at hbb
    · intro i hbb
      simp at hbb
    · intro i hbb
      simp at hbb
    · intro j hbb
      simp at hbb
    · intro hbb
      simp at hbb
    · intro _ i hi
      exact h.allFin (Or.inr (by rw [hb]; rfl)) i hi
    · refine ⟨fun _ => ?_, fun hk => by simp [isKill] at hk⟩
      exact h.kOrd.1 (by rw [hb]; rfl)
    · intro _ i hi hiN
      exact h.kDead (by rw [hb]; rfl) i hi hiN
    · show s.tp = 0
      omega
    · intro hbb
      simp at hbb

theorem bossStep_inv_killPoll (c : Cfg) (s : St) (h : Inv c s)
    (hb : s.bpc = .killPoll) : Inv c (bossStep c s) := by
  have hki := h.kIdle
  unfold KillCl at hki
  rw [hb] at hki
  obtain ⟨hpos, hidles⟩ := hki
  by_cases hidle : (s.slots (s.tp - 1)).state = .idle
  · have e : bossStep c s = { s with bpc := .killSet } := by
      unfold bossStep
      rw [hb]
      dsimp only
      rw [if_pos hidle]
    rw [e]
    refine
      { l1 := h.l1, l2 := h.l2, unb := h.unb, tpLe := h.tpLe, sig := h.sig,
        wok := h.wok, predisp := ?_, disp := ?_, cnt := ?_, fSpawn := ?_,
        fPost := ?_, tpPost := ?_, spawnCl := ?_, hsSetCl := ?_,
        hsPollCl := ?_, hsGoCl := ?_, hsSigCl := ?_, pollCl := ?_,
        rdIdle := ?_, allFin := ?_, kOrd := ?_, kDead := ?_, kIdle := ?_,
        startCl := ?_ }
    · intro i hi
      dsimp only at hi
      exact h.predisp i (by rw [hb]; exact hi)
    · intro i hi hf
      dsimp only at hi hf ⊢
      exact h.disp i (by rw [hb]; exact hi) hf
    · have hc2 := h.cnt
      rw [hb] at hc2
      dsimp only
      simpa [counterSet] using hc2
    · intro hbb
      simp at hbb
    · intro _ j hj
      dsimp only at hj ⊢
      have hold := h.fPost (by rw [hb]; rfl) j hj
      rw [hb] at hold
      exact hold
    · intro _ hk
      simp [isKill] at hk
    · intro hbb
      rcases hbb with hbb | hbb <;> simp at hbb
    · intro i hbb
      simp at hbb
    · intro i hbb
      simp at hbb
    · intro i hbb
      simp at hbb
    · intro i hbb
      simp at hbb
    · intro j hbb
      simp at hbb
    · intro hbb
      simp at hbb
    · intro _ i hi
      exact h.allFin (Or.inr (by rw [hb]; rfl)) i hi
    · refine ⟨fun _ => ?_, fun hk => by simp [isKill] at hk⟩
      exact h.kOrd.1 (by rw [hb]; rfl)
    · intro _ i hi hiN
      exact h.kDead (by rw [hb]; rfl) i hi hiN
    · exact ⟨hpos, hidles⟩
    · intro hbb
      simp at hbb
  · have e : bossStep c s = s := by
      unfold bossStep
      rw [hb]
      dsimp only
      rw [if_neg hidle]
    rw [e]
    exact h

theorem bossStep_inv_killSet (c : Cfg) (s : St) (h : Inv c s)
    (hb : s.bpc = .killSet) : Inv c (bossStep c s) := by
  have hki := h.kIdle
  unfold KillCl at hki
  rw [hb] at hki
  obtain ⟨hpos, hidles⟩ := hki
  have hidle : (s.slots (s.tp - 1)).state = .idle := hidles _ (by omega)
  have hpk := parked_of_idle c s (s.tp - 1) h hidle
  have htN : s.tp - 1 < c.N := by
    have := h.tpLe
    omega
  have hfin : s.finished (s.tp - 1) = true :=
    h.allFin (Or.inr (by rw [hb]; rfl)) _ htN
  have hrj : s.ranJob (s.tp - 1) = true := by
    rw [hpk.2, hfin]
  have e : bossStep c s
      = { s with slots := updState s.slots (s.tp - 1) .done,
                 bpc := .killSignal } := by
    unfold bossStep
    rw [hb]
  rw [e]
  refine
    { l1 := h.l1, l2 := h.l2, unb := h.unb, tpLe := h.tpLe, sig := h.sig,
      wok := ?_, predisp := ?_, disp := ?_, cnt := ?_, fSpawn := ?_,
      fPost := ?_, tpPost := ?_, spawnCl := ?_, hsSetCl := ?_, hsPollCl := ?_,
      hsGoCl := ?_, hsSigCl := ?_, pollCl := ?_, rdIdle := ?_, allFin := ?_,
      kOrd := ?_, kDead := ?_, kIdle := ?_, startCl := ?_ }
  · -- wok
    intro i
    unfold WOk
    dsimp only
    by_cases hik : i = s.tp - 1
    · rw [hik, updState_state, if_pos rfl]
      rcases hpk.1 with hpw | hpw <;> rw [hpw] <;> simp only [WOkA] <;>
        exact Or.inr (Or.inr ⟨trivial, hrj, hfin⟩)
    · rw [updState_state, if_neg hik]
      exact h.wok i
  · -- predisp
    intro i hi
    dsimp only at hi
    have hik : i ≠ s.tp - 1 := by
      have := h.tpLe
      simp [dspCount] at hi
      omega
    have hp := h.predisp i (by rw [hb]; exact hi)
    unfold PreW at hp ⊢
    dsimp only
    rw [updState_state, if_neg hik]
    exact hp
  · -- disp
    intro i hi hf
    dsimp only at hi hf ⊢
    have := h.allFin (Or.inr (by rw [hb]; rfl)) i (by simpa [dspCount] using hi)
    rw [hf] at this
    simp at this
  · have hc2 := h.cnt
    rw [hb] at hc2
    dsimp only
    simpa [counterSet] using hc2
  · intro hbb
    simp at hbb
  · intro _ j hj
    dsimp only at hj ⊢
    have hold := h.fPost (by rw [hb]; rfl) j hj
    rw [hb] at hold
    rw [updState_index, updState_numThreads, updState_alg]
    exact hold
  · intro _ hk
    simp [isKill] at hk
  · intro hbb
    rcases hbb with hbb | hbb <;> simp at hbb
  · intro i hbb
    simp at hbb
  · intro i hbb
    simp at hbb
  · intro i hbb
    simp at hbb
  · intro i hbb
    simp at hbb
  · intro j hbb
    simp at hbb
  · intro hbb
    simp at hbb
  · intro _ i hi
    exact h.allFin (Or.inr (by rw [hb]; rfl)) i hi
  · refine ⟨fun _ => ?_, fun hk => by simp [isKill] at hk⟩
    exact h.kOrd.1 (by rw [hb]; rfl)
  · -- kDead
    intro _ i hi hiN
    dsimp only at hi
    obtain ⟨h1, h2⟩ := h.kDead (by rw [hb]; rfl) i hi hiN
    have hik : i ≠ s.tp - 1 := by omega
    dsimp only
    rw [updState_state, if_neg hik]
    exact ⟨h1, h2⟩
  · -- kIdle
    unfold KillCl
    dsimp only
    refine ⟨hpos, Or.inl ?_, fun i hi => ?_⟩
    · rw [updState_state, if_pos rfl]
    · rw [updState_state, if_neg (by omega)]
      exact hidles i (by omega)
  · intro hbb
    simp at hbb

theorem bossStep_inv_killSignal (c : Cfg) (s : St) (h : Inv c s)
    (hb : s.bpc = .killSignal) : Inv c (bossStep c s) := by
  have hki := h.kIdle
  unfold KillCl at hki
  rw [hb] at hki
  obtain ⟨hpos, hsd, hidles⟩ := hki
  have e : bossStep c s
      = { s with
          wpc := if s.wpc (s.tp - 1) = .sleeping then
              Function.update s.wpc (s.tp - 1) .woken
            else s.wpc
          bpc := .killWaitDead } := by
    unfold bossStep wake
    rw [hb]
    dsimp only
    by_cases hsl : s.wpc (s.tp - 1) = .sleeping
    · rw [if_pos hsl]
      rw [if_pos hsl]
    · rw [if_neg hsl]
      rw [if_neg hsl]
  rw [e]
  have hwp : ∀ i, i ≠ s.tp - 1 →
      (if s.wpc (s.tp - 1) = .sleeping then
          Function.update s.wpc (s.tp - 1) .woken
        else s.wpc) i = s.wpc i := by
    intro i hik
    by_cases hsl : s.wpc (s.tp - 1) = .sleeping
    · rw [if_pos hsl, Function.update_noteq hik]
    · rw [if_neg hsl]
  have htN : s.tp - 1 < c.N := by
    have := h.tpLe
    omega
  refine
    { l1 := h.l1, l2 := h.l2, tpLe := h.tpLe, sig := h.sig, wok := ?_,
      unb := ?_, predisp := ?_, disp := ?_, cnt := ?_, fSpawn := ?_,
      fPost := ?_, tpPost := ?_, spawnCl := ?_, hsSetCl := ?_, hsPollCl := ?_,
      hsGoCl := ?_, hsSigCl := ?_, pollCl := ?_, rdIdle := ?_, allFin := ?_,
      kOrd := ?_, kDead := ?_, kIdle := ?_, startCl := ?_ }
  · -- wok
    intro i
    unfold WOk
    dsimp only
    by_cases hik : i = s.tp - 1
    · rw [hik]
      by_cases hsl : s.wpc (s.tp - 1) = .sleeping
      · rw [if_pos hsl, Function.update_same]
        have hwk := h.wok (s.tp - 1)
        unfold WOk at hwk
        rw [hsl] at hwk
        simp only [WOkA] at hwk ⊢
        rcases hwk with ⟨hx, _⟩ | ⟨hx, _, _⟩ | ⟨hx, hr, hf⟩
        · rw [hx] at hsd
          simp at hsd
        · rw [hx] at hsd
          simp at hsd
        · exact Or.inr ⟨hx, hr, hf⟩
      · rw [if_neg hsl]
        exact h.wok (s.tp - 1)
    · rw [hwp i hik]
      exact h.wok i
  · -- unb
    intro i hi
    dsimp only
    rw [hwp i (by omega)]
    exact h.unb i hi
  · -- predisp
    intro i hi
    dsimp only at hi
    have hik : i ≠ s.tp - 1 := by
      simp [dspCount] at hi
      omega
    have hp := h.predisp i (by rw [hb]; exact hi)
    unfold PreW at hp ⊢
    dsimp only
    rw [hwp i hik]
    exact hp
  · -- disp
    intro i hi hf
    dsimp only at hi hf ⊢
    have := h.allFin (Or.inr (by rw [hb]; rfl)) i (by simpa [dspCount] using hi)
    rw [hf] at this
    simp at this
  · have hc2 := h.cnt
    rw [hb] at hc2
    dsimp only
    simpa [counterSet] using hc2
  · intro hbb
    simp at hbb
  · intro _ j hj
    dsimp only at hj ⊢
    have hold := h.fPost (by rw [hb]; rfl) j hj
    rw [hb] at hold
    exact hold
  · intro _ hk
    simp [isKill] at hk
  · intro hbb
    rcases hbb with hbb | hbb <;> simp at hbb
  · intro i hbb
    simp at hbb
  · intro i hbb
    simp at hbb
  · intro i hbb
    simp at hbb
  · intro i hbb
    simp at hbb
  · intro j hbb
    simp at hbb
  · intro hbb
    simp at hbb
  · intro _ i hi
    exact h.allFin (Or.inr (by rw [hb]; rfl)) i hi
  · refine ⟨fun _ => ?_, fun hk => by simp [isKill] at hk⟩
    exact h.kOrd.1 (by rw [hb]; rfl)
  · -- kDead
    intro _ i hi hiN
    dsimp only at hi
    obtain ⟨h1, h2⟩ := h.kDead (by rw [hb]; rfl) i hi hiN
    have hik : i ≠ s.tp - 1 := by omega
    dsimp only
    rw [hwp i hik]
    exact ⟨h1, h2⟩
  · -- kIdle
    unfold KillCl
    dsimp only
    exact ⟨hpos, hsd, hidles⟩
  · intro hbb
    simp at hbb

theorem bossStep_inv_killWaitDead (c : Cfg) (s : St) (h : Inv c s)
    (hb : s.bpc = .killWaitDead) : Inv c (bossStep c s) := by
  have hki := h.kIdle
  unfold KillCl at hki
  rw [hb] at hki
  obtain ⟨hpos, hsd, hidles⟩ := hki
  by_cases hdead : (s.slots (s.tp - 1)).state = .dead
  · have e : bossStep c s = { s with bpc := .killDetach } := by
      unfold bossStep
      rw [hb]
      dsimp only
      rw [if_pos hdead]
    rw [e]
    refine
      { l1 := h.l1, l2 := h.l2, unb := h.unb, tpLe := h.tpLe, sig := h.sig,
        wok := h.wok, predisp := ?_, disp := ?_, cnt := ?_, fSpawn := ?_,
        fPost := ?_, tpPost := ?_, spawnCl := ?_, hsSetCl := ?_,
        hsPollCl := ?_, hsGoCl := ?_, hsSigCl := ?_, pollCl := ?_,
        rdIdle := ?_, allFin := ?_, kOrd := ?_, kDead := ?_, kIdle := ?_,
        startCl := ?_ }
    · intro i hi
      dsimp only at hi
      exact h.predisp i (by rw [hb]; exact hi)
    · intro i hi hf
      dsimp only at hi hf ⊢
      exact h.disp i (by rw [hb]; exact hi) hf
    · have hc2 := h.cnt
      rw [hb] at hc2
      dsimp only
      simpa [counterSet] using hc2
    · intro hbb
      simp at hbb
    · intro _ j hj
      dsimp only at hj ⊢
      have hold := h.fPost (by rw [hb]; rfl) j hj
      rw [hb] at hold
      exact hold
    · intro _ hk
      simp [isKill] at hk
    · intro hbb
      rcases hbb with hbb | hbb <;> simp at hbb
    · intro i hbb
      simp at hbb
    · intro i hbb
      simp at hbb
    · intro i hbb
      simp at hbb
    · intro i hbb
      simp at hbb
    · intro j hbb
      simp at hbb
    · intro hbb
      simp at hbb
    · intro _ i hi
      exact h.allFin (Or.inr (by rw [hb]; rfl)) i hi
    · refine ⟨fun _ => ?_, fun hk => by simp [isKill] at hk⟩
      exact h.kOrd.1 (by rw [hb]; rfl)
    · intro _ i hi hiN
      exact h.kDead (by rw [hb]; rfl) i hi hiN
    · exact ⟨hpos, hdead, hidles⟩
    · intro hbb
      simp at hbb
  · have e : bossStep c s = s := by
      unfold bossStep
      rw [hb]
      dsimp only
      rw [if_neg hdead]
    rw [e]
    exact h

theorem bossStep_inv_killDetach (c : Cfg) (s : St) (h : Inv c s)
    (hb : s.bpc = .killDetach) : Inv c (bossStep c s) := by
  have hki := h.kIdle
  unfold KillCl at hki
  rw [hb] at hki
  obtain ⟨hpos, hdead, hidles⟩ := hki
  have hhal : s.wpc (s.tp - 1) = .halted := halted_of_dead c s _ h hdead
  have e : bossStep c s
      = { s with killOrder := s.killOrder ++ [s.tp - 1], tp := s.tp - 1,
                 bpc := .killCheck } := by
    unfold bossStep
    rw [hb]
  rw [e]
  refine
    { l1 := h.l1, l2 := h.l2, sig := h.sig, wok := ?_, unb := h.unb,
      tpLe := ?_, predisp := ?_, disp := ?_, cnt := ?_, fSpawn := ?_,
      fPost := ?_, tpPost := ?_, spawnCl := ?_, hsSetCl := ?_, hsPollCl := ?_,
      hsGoCl := ?_, hsSigCl := ?_, pollCl := ?_, rdIdle := ?_, allFin := ?_,
      kOrd := ?_, kDead := ?_, kIdle := ?_, startCl := ?_ }
  · -- wok
    intro i
    unfold WOk
    dsimp only
    exact WOkA_tp_pred _ _ _ _ _ _ _ (by omega) (h.wok i)
  · -- tpLe
    dsimp only
    have := h.tpLe
    omega
  · intro i hi
    dsimp only at hi
    exact h.predisp i (by rw [hb]; exact hi)
  · intro i hi hf
    dsimp only at hi hf ⊢
    have := h.allFin (Or.inr (by rw [hb]; rfl)) i (by simpa [dspCount] using hi)
    rw [hf] at this
    simp at this
  · have hc2 := h.cnt
    rw [hb] at hc2
    dsimp only
    simpa [counterSet] using hc2
  · intro hbb
    simp at hbb
  · intro _ j hj
    dsimp only at hj ⊢
    have hold := h.fPost (by rw [hb]; rfl) j hj
    rw [hb] at hold
    exact hold
  · intro _ hk
    simp [isKill] at hk
  · intro hbb
    rcases hbb with hbb | hbb <;> simp at hbb
  · intro i hbb
    simp at hbb
  · intro i hbb
    simp at hbb
  · intro i hbb
    simp at hbb
  · intro i hbb
    simp at hbb
  · intro j hbb
    simp at hbb
  · intro hbb
    simp at hbb
  · intro _ i hi
    exact h.allFin (Or.inr (by rw [hb]; rfl)) i hi
  · -- kOrd
    refine ⟨fun _ => ?_, fun hk => by simp [isKill] at hk⟩
    dsimp only
    rw [h.kOrd.1 (by rw [hb]; rfl)]
    have h1 : c.N - (s.tp - 1) = (c.N - s.tp) + 1 := by
      have := h.tpLe
      omega
    rw [h1, List.range'_succ, List.reverse_cons]
    have h2 : s.tp - 1 + 1 = s.tp := by omega
    rw [h2]
  · -- kDead
    intro _ i hi hiN
    dsimp only at hi ⊢
    by_cases hik : i = s.tp - 1
    · rw [hik]
      exact ⟨hdead, hhal⟩
    · exact h.kDead (by rw [hb]; rfl) i (by omega) hiN
  · -- kIdle
    unfold KillCl
    dsimp only
    intro i hi
    exact hidles i hi
  · intro hbb
    simp at hbb

theorem bossStep_inv_killDone (c : Cfg) (s : St) (h : Inv c s)
    (hb : s.bpc = .killDone) : Inv c (bossStep c s) := by
  have e : bossStep c s = s := by
    unfold bossStep
    rw [hb]
  rw [e]
  exact h

theorem bossStep_inv (c : Cfg) (hN : 2 ≤ c.N) (s : St) (h : Inv c s) :
    Inv c (bossStep c s) := by
  cases hb : s.bpc with
  | start => exact bossStep_inv_start c hN s h hb
  | spawning =>
      by_cases hlt : s.tp < c.N
      · exact bossStep_inv_spawn c hN s h hb hlt
      · exact bossStep_inv_spawnDone c hN s h hb hlt
  | hsSet i0 => exact bossStep_inv_hsSet c s h i0 hb
  | hsPoll i0 => exact bossStep_inv_hsPoll c s h i0 hb
  | hsGo i0 => exact bossStep_inv_hsGo c s h i0 hb
  | hsSignal i0 => exact bossStep_inv_hsSignal c s h i0 hb
  | toWaitB => exact bossStep_inv_toWaitB c s h hb
  | sleepingB => exact bossStep_inv_sleepingB c s h hb
  | poll j0 => exact bossStep_inv_poll c s h j0 hb
  | runDone => exact bossStep_inv_runDone c s h hb
  | killCheck => exact bossStep_inv_killCheck c s h hb
  | killPoll => exact bossStep_inv_killPoll c s h hb
  | killSet => exact bossStep_inv_killSet c s h hb
  | killSignal => exact bossStep_inv_killSignal c s h hb
  | killWaitDead => exact bossStep_inv_killWaitDead c s h hb
  | killDetach => exact bossStep_inv_killDetach c s h hb
  | killDone => exact bossStep_inv_killDone c s h hb

theorem stepA_inv (c : Cfg) (hN : 2 ≤ c.N) (s : St) (a : Act) (h : Inv c s) :
    Inv c (stepA c s a) := by
  cases a with
  | boss => exact bossStep_inv c hN s h
  | wk i => exact wkStep_inv c s i h

theorem execE_inv (c : Cfg) (hN : 2 ≤ c.N) (acts : List Act) :
    Inv c (execE c acts) := by
  unfold execE
  have h0 : Inv c st0 := Inv_st0 c (by omega)
  generalize st0 = s0 at h0
  induction acts generalizing s0 with
  | nil => exact h0
  | cons a tl ih =>
      simp only [List.foldl_cons]
      exact ih _ (stepA_inv c hN s0 a h0)

/-! ## Claims C1, C7, C8, C10 -/

theorem count_range_eq (a n : Nat) :
    (List.range n).count a = if a < n then 1 else 0 := by
  induction n with
  | zero => simp
  | succ m ih =>
      rw [List.range_succ, List.count_append, ih, List.count_singleton']
      split_ifs with h1 h2 h3 <;> omega

/-- C1: for every worker count `N` in `[1, cap]`, after `ThreadManager::run`
returns (the interleaved model reaches `runDone` under an arbitrary schedule,
for `2 ≤ N`; the `N = 1` fast path is the last conjunct), the job's
`threadProc` has been invoked exactly `N` times, once per worker index in
`[0, N)` (the multiset of logged worker indices is a permutation of
`0, …, N-1`), each invocation received `(index, numThreads) = (i, N)`, and
every participating worker has completed its invocation (`--cnt` executed)
and returned its slot to `Idle` before `run` returns: `run` is a full
barrier. -/
theorem claim_C1_run_exactly_once_barrier (c : Cfg) (acts : List Act)
    (hN : 2 ≤ c.N) (hJob : c.hasJob = true)
    (hdone : (execE c acts).bpc = .runDone) :
    ((execE c acts).log.map Call.worker).Perm (List.range c.N) ∧
    (execE c acts).log.length = c.N ∧
    (∀ e ∈ (execE c acts).log,
        e.argIndex = e.worker ∧ e.argNum = c.N ∧ e.worker < c.N) ∧
    (∀ i, i < c.N → ((execE c acts).slots i).state = .idle ∧
        (execE c acts).finished i = true) ∧
    ∀ p : Pool, (runD p true 1).calls = [(0, 1)] := by
  have h := execE_inv c hN acts
  have hperm : ((execE c acts).log.map Call.worker).Perm (List.range c.N) := by
    rw [List.perm_iff_count]
    intro a
    rw [count_range_eq]
    by_cases ha : a < c.N
    · rw [if_pos ha]
      have hidle := h.rdIdle hdone a ha
      have hpk := parked_of_idle c (execE c acts) a h hidle
      have hfin := h.allFin (Or.inl hdone) a ha
      have hrj : (execE c acts).ranJob a = true := by rw [hpk.2, hfin]
      have hl := h.l1 a
      rw [hl, if_pos ⟨hJob, hrj⟩]
    · rw [if_neg ha]
      refine List.count_eq_zero.mpr fun hm => ?_
      obtain ⟨e, he, hw⟩ := List.mem_map.mp hm
      exact ha (hw ▸ (h.l2 e he).2.2)
  refine ⟨hperm, ?_, h.l2, ?_, fun p => rfl⟩
  · have hlen := hperm.length_eq
    rw [List.length_map, List.length_range] at hlen
    exact hlen
  · intro i hi
    exact ⟨h.rdIdle hdone i hi, h.allFin (Or.inl hdone) i hi⟩

/-- Schedule for the C1 witness: boss spawns two workers, handshakes both,
sleeps; the workers run the job, the second one signals; the boss polls both
slots and `run` returns. -/
def c1acts : List Act :=
  [.boss, .boss, .boss, .boss, .wk 0, .wk 0, .boss, .boss, .boss, .boss,
   .wk 1, .wk 1, .boss, .boss, .boss, .boss, .boss, .wk 0, .wk 0, .wk 0,
   .wk 1, .wk 1, .wk 1, .boss, .boss, .boss]

theorem claim_C1_run_exactly_once_barrier_w :
    (2 ≤ (2 : Nat) ∧ (execE ⟨2, true⟩ c1acts).bpc = .runDone) ∧
    (((execE ⟨2, true⟩ c1acts).log.map Call.worker).Perm (List.range 2) ∧
     (execE ⟨2, true⟩ c1acts).log.length = 2 ∧
     (∀ e ∈ (execE ⟨2, true⟩ c1acts).log,
        e.argIndex = e.worker ∧ e.argNum = 2 ∧ e.worker < 2) ∧
     (∀ i, i < 2 → ((execE ⟨2, true⟩ c1acts).slots i).state = .idle ∧
        (execE ⟨2, true⟩ c1acts).finished i = true) ∧
     ∀ p : Pool, (runD p true 1).calls = [(0, 1)]) :=
  ⟨⟨by decide, by decide⟩,
   claim_C1_run_exactly_once_barrier ⟨2, true⟩ c1acts (by decide) rfl
     (by decide)⟩

/-- C7: `killall` tears the pool down strictly from the highest slot index
down to 0 (the order in which slots are detached is `N-1, …, 1, 0`); each
released slot was observed `Idle`, set to `Done`, signalled, observed `Dead`
and only then detached (the ghost `killOrder` is appended exactly at the
detach step); after `killall` returns, `threadsInPool = 0`, every slot is
`Dead` and its worker has returned, and on a pool with `threadsInPool = 0`
the `killall` loop body performs no action at all. -/
theorem claim_C7_killall_teardown (c : Cfg) (acts : List Act)
    (hN : 2 ≤ c.N) (hdone : (execE c acts).bpc = .killDone) :
    (execE c acts).tp = 0 ∧
    (execE c acts).killOrder = (List.range c.N).reverse ∧
    (∀ i, i < c.N → ((execE c acts).slots i).state = .dead ∧
        (execE c acts).wpc i = .halted) ∧
    ∀ s : St, s.bpc = .killCheck → s.tp = 0 →
      bossStep c s = { s with bpc := .killDone } := by
  have h := execE_inv c hN acts
  have htp : (execE c acts).tp = 0 := by
    have hk := h.kIdle
    unfold KillCl at hk
    rw [hdone] at hk
    exact hk
  refine ⟨htp, ?_, ?_, ?_⟩
  · have hko := h.kOrd.1 (by rw [hdone]; rfl)
    rw [htp] at hko
    rw [hko, Nat.sub_zero, List.range_eq_range']
  · intro i hi
    exact h.kDead (by rw [hdone]; rfl) i (by rw [htp]; exact Nat.zero_le i) hi
  · intro s hb h0
    unfold bossStep
    rw [hb]
    dsimp only
    rw [if_neg (by omega)]

/-- Schedule for the C7 witness: the C1 round (two workers, job executed,
`run` returns), then `killall` releases slot 1 and then slot 0, each via
`Idle → Done → signal → Dead → detach`. -/
def c7acts : List Act :=
  [.boss, .boss, .boss, .boss, .wk 0, .wk 0, .boss, .boss, .boss, .boss,
   .wk 1, .wk 1, .boss, .boss, .boss, .boss, .boss, .wk 0, .wk 0, .wk 0,
   .wk 1, .wk 1, .wk 1, .boss, .boss, .boss,
   .boss, .wk 1, .boss, .boss, .boss, .boss, .wk 1, .wk 1, .boss, .boss,
   .wk 0, .boss, .boss, .boss, .boss, .wk 0, .wk 0, .boss, .boss, .boss]

theorem claim_C7_killall_teardown_w :
    (2 ≤ (2 : Nat) ∧ (execE ⟨2, true⟩ c7acts).bpc = .killDone) ∧
    ((execE ⟨2, true⟩ c7acts).tp = 0 ∧
     (execE ⟨2, true⟩ c7acts).killOrder = (List.range 2).reverse ∧
     (∀ i, i < 2 → ((execE ⟨2, true⟩ c7acts).slots i).state = .dead ∧
        (execE ⟨2, true⟩ c7acts).wpc i = .halted) ∧
     ∀ s : St, s.bpc = .killCheck → s.tp = 0 →
       bossStep ⟨2, true⟩ s = { s with bpc := .killDone }) :=
  ⟨⟨by decide, by decide⟩,
   claim_C7_killall_teardown ⟨2, true⟩ c7acts (by decide) rfl⟩

/-- The legal `ThreadState` transitions:
`Init → Idle`, `Idle → Running`, `Running → Idle`, `Idle → Done`,
`Done → Dead` (and `Dead` is terminal: no edge leaves it). -/
def okEdge (a b : TState) : Prop :=
  (a = .init ∧ b = .idle) ∨ (a = .idle ∧ b = .running) ∨
  (a = .running ∧ b = .idle) ∨ (a = .idle ∧ b = .done) ∨
  (a = .done ∧ b = .dead)

theorem bossStep_slot_change (c : Cfg) (s : St) (h : Inv c s) (i : Nat)
    (hch : ((bossStep c s).slots i).state ≠ (s.slots i).state) :
    (s.slots i).state = .idle ∧
    (((bossStep c s).slots i).state = .running ∨
     ((bossStep c s).slots i).state = .done) := by
  cases hb : s.bpc with
  | start =>
      exfalso
      apply hch
      unfold bossStep
      rw [hb]
      dsimp only
      split_ifs <;> rfl
  | spawning =>
      exfalso
      apply hch
      unfold bossStep
      rw [hb]
      dsimp only
      by_cases hlt : s.tp < c.N
      · rw [if_pos hlt]
        dsimp only
        by_cases h1 : i = s.tp
        · rw [if_pos h1]
          have hwub := h.spawnCl (Or.inr hb) s.tp (le_refl _)
          have hwk := h.wok s.tp
          unfold WOk at hwk
          rw [hwub] at hwk
          simp only [WOkA] at hwk
          rw [h1]
          exact hwk.2.symm
        · rw [if_neg h1]
          by_cases h2 : i < s.tp
          · rw [if_pos h2]
          · rw [if_neg h2]
      · rw [if_neg hlt]
  | hsSet i0 =>
      exfalso
      apply hch
      unfold bossStep
      rw [hb]
      dsimp only
      by_cases h1 : i = i0
      · rw [if_pos h1, h1]
      · rw [if_neg h1]
  | hsPoll i0 =>
      exfalso
      apply hch
      unfold bossStep
      rw [hb]
      dsimp only
      split_ifs <;> rfl
  | hsGo i0 =>
      have hcl := h.hsGoCl i0 hb
      have e : bossStep c s = { s with
          slots := updState s.slots i0 TState.running
          bpc := BPC.hsSignal i0 } := by
        unfold bossStep
        rw [hb]
      rw [e] at hch ⊢
      dsimp only at hch ⊢
      rw [updState_state] at hch ⊢
      by_cases h1 : i = i0
      · rw [if_pos h1] at hch ⊢
        rw [h1]
        exact ⟨hcl.2, Or.inl rfl⟩
      · rw [if_neg h1] at hch
        exact absurd rfl hch
  | hsSignal i0 =>
      exfalso
      apply hch
      unfold bossStep wake
      rw [hb]
      dsimp only
      split_ifs <;> rfl
  | toWaitB =>
      exfalso
      apply hch
      unfold bossStep
      rw [hb]
  | sleepingB =>
      exfalso
      apply hch
      unfold bossStep
      rw [hb]
  | poll j0 =>
      exfalso
      apply hch
      unfold bossStep
      rw [hb]
      dsimp only
      split_ifs <;> rfl
  | runDone =>
      exfalso
      apply hch
      unfold bossStep
      rw [hb]
  | killCheck =>
      exfalso
      apply hch
      unfold bossStep
      rw [hb]
      dsimp only
      split_ifs <;> rfl
  | killPoll =>
      exfalso
      apply hch
      unfold bossStep
      rw [hb]
      dsimp only
      split_ifs <;> rfl
  | killSet =>
      have hki := h.kIdle
      unfold KillCl at hki
      rw [hb] at hki
      obtain ⟨hpos, hidles⟩ := hki
      have e : bossStep c s = { s with
          slots := updState s.slots (s.tp - 1) TState.done
          bpc := BPC.killSignal } := by
        unfold bossStep
        rw [hb]
      rw [e] at hch ⊢
      dsimp only at hch ⊢
      rw [updState_state] at hch ⊢
      by_cases h1 : i = s.tp - 1
      · rw [if_pos h1] at hch ⊢
        rw [h1]
        exact ⟨hidles _ (by omega), Or.inr rfl⟩
      · rw [if_neg h1] at hch
        exact absurd rfl hch
  | killSignal =>
      exfalso
      apply hch
      unfold bossStep wake
      rw [hb]
      dsimp only
      split_ifs <;> rfl
  | killWaitDead =>
      exfalso
      apply hch
      unfold bossStep
      rw [hb]
      dsimp only
      split_ifs <;> rfl
  | killDetach =>
      exfalso
      apply hch
      unfold bossStep
      rw [hb]
  | killDone =>
      exfalso
      apply hch
      unfold bossStep
      rw [hb]

theorem wkStep_slot_change (c : Cfg) (s : St) (h : Inv c s) (k i : Nat)
    (hch : ((wkStep s k).slots i).state ≠ (s.slots i).state) :
    i = k ∧
    ((((s.slots i).state = .init ∨ (s.slots i).state = .running) ∧
        ((wkStep s k).slots i).state = .idle) ∨
     ((s.slots i).state = .done ∧ ((wkStep s k).slots i).state = .dead)) := by
  cases hw : s.wpc k with
  | unborn =>
      exfalso
      apply hch
      unfold wkStep
      rw [hw]
  | atTop =>
      have e : wkStep s k = { s with
          slots := updState s.slots k TState.idle
          wpc := Function.update s.wpc k WPC.toWait } := by
        unfold wkStep
        rw [hw]
      rw [e] at hch ⊢
      dsimp only at hch ⊢
      rw [updState_state] at hch ⊢
      by_cases h1 : i = k
      · rw [if_pos h1] at hch ⊢
        refine ⟨h1, Or.inl ⟨?_, rfl⟩⟩
        have hwk := h.wok k
        unfold WOk at hwk
        rw [hw] at hwk
        simp only [WOkA] at hwk
        rw [h1]
        rcases hwk with ⟨hx, _, _⟩ | ⟨hx, _, _⟩
        · exact Or.inl hx
        · exact Or.inr hx
      · rw [if_neg h1] at hch
        exact absurd rfl hch
  | toWait =>
      exfalso
      apply hch
      unfold wkStep
      rw [hw]
  | sleeping =>
      exfalso
      apply hch
      unfold wkStep
      rw [hw]
  | woken =>
      exfalso
      apply hch
      unfold wkStep
      rw [hw]
      dsimp only
      cases hst : (s.slots k).state <;> rfl
  | afterJob =>
      exfalso
      apply hch
      unfold wkStep
      rw [hw]
      dsimp only
      split_ifs <;> rfl
  | exiting =>
      have e : wkStep s k = { s with
          slots := updState s.slots k TState.dead
          wpc := Function.update s.wpc k WPC.halted } := by
        unfold wkStep
        rw [hw]
      rw [e] at hch ⊢
      dsimp only at hch ⊢
      rw [updState_state] at hch ⊢
      by_cases h1 : i = k
      · rw [if_pos h1] at hch ⊢
        refine ⟨h1, Or.inr ⟨?_, rfl⟩⟩
        have hwk := h.wok k
        unfold WOk at hwk
        rw [hw] at hwk
        simp only [WOkA] at hwk
        rw [h1]
        exact hwk.1
      · rw [if_neg h1] at hch
        exact absurd rfl hch
  | halted =>
      exfalso
      apply hch
      unfold wkStep
      rw [hw]

/-- C8: along every reachable execution, whenever a step changes a slot's
`state`, the change follows one of the legal edges `Init → Idle`,
`Idle → Running`, `Running → Idle`, `Idle → Done`, `Done → Dead` (so `Dead`
is terminal); when the acting thread is the boss the edge starts at `Idle`
and ends at `Running` or `Done` (the boss performs only `Idle → Running` and
`Idle → Done`); and a slot in `Running` is only ever moved by its own worker
thread. -/
theorem claim_C8_state_machine_edges (c : Cfg) (acts : List Act) (a : Act)
    (i : Nat) (hN : 2 ≤ c.N)
    (hch : ((stepA c (execE c acts) a).slots i).state ≠
        ((execE c acts).slots i).state) :
    okEdge ((execE c acts).slots i).state
        ((stepA c (execE c acts) a).slots i).state ∧
    (a = .boss →
      ((execE c acts).slots i).state = .idle ∧
      (((stepA c (execE c acts) a).slots i).state = .running ∨
       ((stepA c (execE c acts) a).slots i).state = .done)) ∧
    (((execE c acts).slots i).state = .running → a = .wk i) := by
  have h := execE_inv c hN acts
  cases a with
  | boss =>
      have hb := bossStep_slot_change c (execE c acts) h i hch
      refine ⟨?_, fun _ => hb, ?_⟩
      · rcases hb.2 with h2 | h2
        · exact Or.inr (Or.inl ⟨hb.1, h2⟩)
        · exact Or.inr (Or.inr (Or.inr (Or.inl ⟨hb.1, h2⟩)))
      · intro hr
        rw [hb.1] at hr
        simp at hr
  | wk k =>
      have hw := wkStep_slot_change c (execE c acts) h k i hch
      refine ⟨?_, ?_, ?_⟩
      · rcases hw.2 with ⟨hsrc, hdst⟩ | ⟨hsrc, hdst⟩
        · rcases hsrc with hsrc | hsrc
          · exact Or.inl ⟨hsrc, hdst⟩
          · exact Or.inr (Or.inr (Or.inl ⟨hsrc, hdst⟩))
        · exact Or.inr (Or.inr (Or.inr (Or.inr ⟨hsrc, hdst⟩)))
      · intro heq
        exact Act.noConfusion heq
      · intro _
        rw [hw.1]

theorem claim_C8_state_machine_edges_w :
    (2 ≤ (2 : Nat) ∧
      ((stepA ⟨2, true⟩ (execE ⟨2, true⟩ [.boss, .boss]) (.wk 0)).slots 0).state ≠
        ((execE ⟨2, true⟩ [.boss, .boss]).slots 0).state) ∧
    (okEdge ((execE ⟨2, true⟩ [.boss, .boss]).slots 0).state
        ((stepA ⟨2, true⟩ (execE ⟨2, true⟩ [.boss, .boss]) (.wk 0)).slots 0).state ∧
     (Act.wk 0 = .boss →
       ((execE ⟨2, true⟩ [.boss, .boss]).slots 0).state = .idle ∧
       (((stepA ⟨2, true⟩ (execE ⟨2, true⟩ [.boss, .boss]) (.wk 0)).slots 0).state = .running ∨
        ((stepA ⟨2, true⟩ (execE ⟨2, true⟩ [.boss, .boss]) (.wk 0)).slots 0).state = .done)) ∧
     (((execE ⟨2, true⟩ [.boss, .boss]).slots 0).state = .running →
       Act.wk 0 = .wk 0)) :=
  ⟨⟨by decide, by decide⟩,
   claim_C8_state_machine_edges ⟨2, true⟩ [.boss, .boss] (.wk 0) 0 (by decide)
     (by decide)⟩

/-- C10: a worker woken in `Running` whose slot's `algorithm` is null skips
the task dispatch (the invocation log is unchanged) but still proceeds to the
counter decrement, which always lowers the shared counter by one and, exactly
when it reaches zero, signals the boss's release event; consequently a whole
round run with a null job still terminates with an empty invocation log, the
counter at zero and the boss signalled exactly once, so `run` is released
rather than blocking forever. -/
theorem claim_C10_null_job_still_releases (c : Cfg) (acts : List Act)
    (hN : 2 ≤ c.N) (hNoJob : c.hasJob = false)
    (hdone : (execE c acts).bpc = .runDone) :
    (∀ s : St, ∀ i, s.wpc i = .woken → (s.slots i).state = .running →
        (s.slots i).alg = false →
        (wkStep s i).log = s.log ∧ (wkStep s i).wpc i = .afterJob) ∧
    (∀ s : St, ∀ i, s.wpc i = .afterJob →
        (wkStep s i).counter = s.counter - 1 ∧
        (s.counter - 1 = 0 →
          (wkStep s i).bossSignals = s.bossSignals + 1)) ∧
    (execE c acts).log = [] ∧
    (execE c acts).counter = 0 ∧
    (execE c acts).bossSignals = 1 := by
  have h := execE_inv c hN acts
  have hfc : finCount c (execE c acts) = c.N :=
    finCountF_all c.N _ (h.allFin (Or.inl hdone))
  refine ⟨?_, ?_, ?_, ?_, ?_⟩
  · intro s i hwpc hst halg
    constructor
    · show (wkStep s i).log = s.log
      unfold wkStep
      rw [hwpc]
      dsimp only
      rw [hst]
      dsimp only
      rw [halg]
      rfl
    · show (wkStep s i).wpc i = .afterJob
      unfold wkStep
      rw [hwpc]
      dsimp only
      rw [hst]
      dsimp only
      rw [Function.update_same]
  · intro s i hwpc
    constructor
    · show (wkStep s i).counter = s.counter - 1
      unfold wkStep
      rw [hwpc]
      dsimp only
      split_ifs <;> rfl
    · intro hz
      show (wkStep s i).bossSignals = s.bossSignals + 1
      unfold wkStep
      rw [hwpc]
      dsimp only
      rw [if_pos hz]
  · have hmap : (execE c acts).log.map Call.worker = [] := by
      rw [List.eq_nil_iff_forall_not_mem]
      intro a hm
      have hl := h.l1 a
      rw [hNoJob] at hl
      simp at hl
      exact (List.count_eq_zero.mp hl) hm
    exact List.map_eq_nil_iff.mp hmap
  · have hc := h.cnt
    rw [hdone] at hc
    rw [hc, if_pos (show counterSet BPC.runDone = true from rfl), hfc]
    simp
  · rw [h.sig, if_pos hfc]

/-- Schedule for the C10 witness: the same two-worker round as for C1, but
run with a null job. -/
def c10acts : List Act :=
  [.boss, .boss, .boss, .boss, .wk 0, .wk 0, .boss, .boss, .boss, .boss,
   .wk 1, .wk 1, .boss, .boss, .boss, .boss, .boss, .wk 0, .wk 0, .wk 0,
   .wk 1, .wk 1, .wk 1, .boss, .boss, .boss]

theorem claim_C10_null_job_still_releases_w :
    (2 ≤ (2 : Nat) ∧ (⟨2, false⟩ : Cfg).hasJob = false ∧
      (execE ⟨2, false⟩ c10acts).bpc = .runDone) ∧
    ((∀ s : St, ∀ i, s.wpc i = .woken → (s.slots i).state = .running →
        (s.slots i).alg = false →
        (wkStep s i).log = s.log ∧ (wkStep s i).wpc i = .afterJob) ∧
     (∀ s : St, ∀ i, s.wpc i = .afterJob →
        (wkStep s i).counter = s.counter - 1 ∧
        (s.counter - 1 = 0 →
          (wkStep s i).bossSignals = s.bossSignals + 1)) ∧
     (execE ⟨2, false⟩ c10acts).log = [] ∧
     (execE ⟨2, false⟩ c10acts).counter = 0 ∧
     (execE ⟨2, false⟩ c10acts).bossSignals = 1) :=
  ⟨⟨by decide, rfl, by decide⟩,
   claim_C10_null_job_still_releases ⟨2, false⟩ c10acts (by decide) rfl
     (by decide)⟩
